import Mathlib

/-!
Verification of the AVN/petrel core (scanner, Pratt compiler, bytecode VM,
region allocator) against its natural-language specification.

The Rust sources are shallowly embedded: `usize` becomes `Nat` (with the
wrap-around of a concrete subtraction or an `as u8` cast made explicit where
the code relies on it), `Vec<T>` becomes `List T`, `f64` literals and
arithmetic become `ℚ` (the embedding preserves the order and shape of the
floating-point operations, which is what the arithmetic claims are about),
and fallible paths become `Except`/outcome types.  A Rust `panic!`,
`expect`, or out-of-bounds `[]` index is a distinguished `panicked` outcome,
kept separate from the structured errors the code returns as values.
-/

namespace Petrel

/-! ## Region allocator: `src/petrel/src/runtime/bump.rs` -/

def BLOCK_SIZE_BITS : Nat := 15
def BLOCK_SIZE : Nat := 1 <<< BLOCK_SIZE_BITS
def LINE_SIZE_BITS : Nat := 7
def LINE_SIZE : Nat := 1 <<< LINE_SIZE_BITS
def LINE_COUNT : Nat := BLOCK_SIZE / LINE_SIZE

/-- `BlockMeta`: the per-block line-mark array plus the whole-block mark.
The Rust field is a fixed `[bool; LINE_COUNT]`; a `List Bool` of length
`LINE_COUNT` stands in for it. -/
structure BlockMeta where
  line_mark : List Bool
  block_mark : Bool

/-- The loop body of `BlockMeta::find_next_available_hole`, one iteration per
remaining line mark.  State threaded exactly as the Rust `for` loop does:
`count` of unmarked lines in the current hole, optional `start` line, `stop`
line, and the absolute index of the line examined. -/
def holeLoop : Nat → Option Nat → Nat → Nat → List Bool → Option (Nat × Nat)
  | _, _, _, _, [] => none
  | count, start, stop, absIdx, marked :: rest =>
    if marked then
      -- the `!*marked` block is skipped; then `count > 0 && (*marked || _)`
      if count > 0 then
        match start with
        | some s => some (s * LINE_SIZE, stop * LINE_SIZE)
        | none => holeLoop 0 none stop (absIdx + 1) rest
      else holeLoop 0 none stop (absIdx + 1) rest
    else
      let count' := count + 1
      -- first line of a hole, not the zeroth line: conservatively skip
      if count' = 1 ∧ absIdx > 0 then holeLoop count' start stop (absIdx + 1) rest
      else
        let start' := match start with | none => some absIdx | some s => some s
        let stop' := absIdx + 1
        if count' > 0 ∧ stop' ≥ LINE_COUNT then
          match start' with
          | some s => some (s * LINE_SIZE, stop' * LINE_SIZE)
          | none => holeLoop count' start' stop' (absIdx + 1) rest
        else holeLoop count' start' stop' (absIdx + 1) rest

/-- `BlockMeta::find_next_available_hole(starting_at)`. -/
def BlockMeta.find_next_available_hole (m : BlockMeta) (starting_at : Nat) :
    Option (Nat × Nat) :=
  let starting_line := starting_at / LINE_SIZE
  holeLoop 0 none 0 starting_line (m.line_mark.drop starting_line)

/-! ## Value and errors

`Value` lives in `src/petrel/src/common/value.rs`, which is not among the
provided sources; the spec's data model fixes it. -/

/-- Modelled from the spec: `Value`, the "tagged union \x7bNumber(double),
Bool, Null\x7d" of §3, from the missing `common/value.rs`.  `Number` carries
`ℚ` in place of `f64`. -/
inductive Value where
  | number (q : ℚ)
  | bool (b : Bool)
  | null
deriving DecidableEq, Repr

def Value.isNumber : Value → Bool
  | .number _ => true
  | .bool _ => false
  | .null => false

/-- Modelled from the spec: the diagnostic `Context` that
`VM::create_context` builds (`Context::new("Unknown", line, message)`); the
`diagnostic` module's own definition is not among the provided sources. -/
structure Context where
  name : String
  line : Nat
  message : String
deriving DecidableEq, Repr

/-- `VMError` (`src/petrel/src/diagnostic/error.rs`), restricted to the
variants `runtime/vm.rs` constructs.  `Runtime(Context)` appears in `vm.rs`;
it is missing from the (stale) `diagnostic/error.rs` snapshot and modelled
from its use sites. -/
inductive VMError where
  | invalidOpcodeConversion (b : Nat)
  | emptyStack
  | noReturn
  | runtime (c : Context)
deriving DecidableEq, Repr

/-! ## Virtual machine: `src/petrel/src/runtime/vm.rs` -/

/-- The `Opcode` enum, `repr(u8)`, discriminants 0..10 in declaration
order. -/
inductive Opcode where
  | opReturn | opConstant | opNegate | opAdd | opSubtract | opMultiply
  | opDivide | opNull | opTrue | opFalse | opNot
deriving DecidableEq, Repr

/-- `impl From<Opcode> for u8`: the `as u8` discriminant. -/
def Opcode.toByte : Opcode → Nat
  | .opReturn => 0 | .opConstant => 1 | .opNegate => 2 | .opAdd => 3
  | .opSubtract => 4 | .opMultiply => 5 | .opDivide => 6 | .opNull => 7
  | .opTrue => 8 | .opFalse => 9 | .opNot => 10

/-- `impl TryFrom<u8> for Opcode`: only bytes 0–6 are listed; everything
else — including the discriminants 7–10 of `OpNull`/`OpTrue`/`OpFalse`/
`OpNot` — is `Err(VMError::InvalidOpcodeConversion)`. -/
def tryFromByte (b : Nat) : Except VMError Opcode :=
  if b = 0 then .ok .opReturn
  else if b = 1 then .ok .opConstant
  else if b = 2 then .ok .opNegate
  else if b = 3 then .ok .opAdd
  else if b = 4 then .ok .opSubtract
  else if b = 5 then .ok .opMultiply
  else if b = 6 then .ok .opDivide
  else .error (.invalidOpcodeConversion b)

/-- `Operation`: opcode byte (also reused as a raw operand byte after
`OpConstant`) and source line. -/
structure Operation where
  opcode : Nat
  line : Nat
deriving DecidableEq, Repr

/-- The `VM` struct. -/
structure VM where
  instructions : List Operation
  constants : List Value
  stack : List Value
  ip : Nat
deriving DecidableEq, Repr

/-- What made the VM panic: an out-of-bounds direct `[]` index, or the
`panic!` in `dissasemble_instruction` on a byte `Opcode::try_from`
rejects. -/
inductive PanicKind where
  | indexOOB
  | decode (b : Nat)
deriving DecidableEq, Repr

/-- How a call to `VM::run` can end.  `ok` carries the final operand stack
(`run` itself returns `Ok(())` and leaves the stack in `self`); `errored` is
a structured error returned as a value; `panicked` is a Rust panic.
`outOfFuel` is a marker of the embedding only: the loop is modelled with a
step budget, `VM.run` supplies one that provably cannot run out
(`runLoop_fuel_sufficient`), since every iteration strictly advances the
instruction pointer. -/
inductive RunOutcome where
  | ok (stack : List Value)
  | errored (e : VMError)
  | panicked (k : PanicKind)
  | outOfFuel
deriving DecidableEq, Repr

/-- The partiality of `dissasemble_instruction`
(`src/petrel/src/diagnostic/debug.rs`), which `VM::run` calls before
decoding every instruction.  Its printing is irrelevant; what matters is
that it panics on `Err` from `Opcode::try_from`, and that its `OpConstant`
arm directly indexes `instructions[offset + 1]` and `constants[...]`. -/
def dissasembleCheck (ins : List Operation) (consts : List Value)
    (offset : Nat) : Option PanicKind :=
  match ins[offset]? with
  | none => some .indexOOB
  | some op =>
    match tryFromByte op.opcode with
    | .error _ => some (.decode op.opcode)
    | .ok code =>
      if code = .opConstant then
        match ins[offset + 1]? with
        | none => some .indexOOB
        | some op2 =>
          match consts[op2.opcode]? with
          | none => some .indexOOB
          | some _ => none
      else none

/-- The `binary_op!` macro body.  `peek(distance)` is
`stack.get(len - 1 - distance)`: with the stack's top at the list head that
is `get? distance`, and when `distance ≥ len` the release-mode wrap-around
of the `usize` subtraction makes `get` return `None`, hence `EmptyStack`.
The outer `if let Value::Number` on `peek(0)` has **no else branch**: a
non-Number on top falls through silently. -/
def binaryOpStep (f : ℚ → ℚ → ℚ) (line : Nat) (stack : List Value) :
    Except VMError (List Value) :=
  match stack with
  | [] => .error .emptyStack                    -- peek(0) finds nothing
  | .bool b :: rest => .ok (.bool b :: rest)    -- top not a Number: no else on the outer if let, silent no-op
  | .null :: rest => .ok (.null :: rest)        -- ditto
  | .number _ :: [] => .error .emptyStack       -- peek(1) finds nothing
  | .number an :: .number bn :: rest => .ok (.number (f bn an) :: rest)
  | .number _ :: .bool _ :: _ =>
    .error (.runtime ⟨"Unknown", line, "Operands must be numbers"⟩)
  | .number _ :: .null :: _ =>
    .error (.runtime ⟨"Unknown", line, "Operands must be numbers"⟩)

/-- The result of one iteration of `VM::run`'s loop: either the loop
continues with an updated stack and instruction pointer, or the call ends
with a `RunOutcome`. -/
inductive StepRes where
  | cont (stack : List Value) (ip : Nat)
  | halt (r : RunOutcome)
deriving DecidableEq, Repr

/-- One iteration of the fetch–decode–execute loop of `VM::run`: the guarded
`instructions.get(ip)` (end of stream ⇒ `NoReturn`), the
`dissasemble_instruction` call (which can panic), `Opcode::try_from`, then
the opcode match.  `break` on `OpReturn` surfaces the final stack. -/
def runStep (ins : List Operation) (consts : List Value)
    (stack : List Value) (ip : Nat) : StepRes :=
  match ins[ip]? with
  | none => .halt (.errored .noReturn)
  | some instr =>
    match dissasembleCheck ins consts ip with
    | some k => .halt (.panicked k)
    | none =>
      match tryFromByte instr.opcode with
      | .error e => .halt (.errored e)
      | .ok op =>
        match op with
        | .opReturn => .halt (.ok stack)
        | .opAdd =>
          match binaryOpStep (· + ·) instr.line stack with
          | .error e => .halt (.errored e)
          | .ok stack' => .cont stack' (ip + 1)
        | .opSubtract =>
          match binaryOpStep (· - ·) instr.line stack with
          | .error e => .halt (.errored e)
          | .ok stack' => .cont stack' (ip + 1)
        | .opMultiply =>
          match binaryOpStep (· * ·) instr.line stack with
          | .error e => .halt (.errored e)
          | .ok stack' => .cont stack' (ip + 1)
        | .opDivide =>
          match binaryOpStep (· / ·) instr.line stack with
          | .error e => .halt (.errored e)
          | .ok stack' => .cont stack' (ip + 1)
        | .opNegate =>
          -- peek(0), then pop/negate a Number, else the runtime error
          match stack with
          | [] => .halt (.errored .emptyStack)
          | .number n :: rest => .cont (.number (-n) :: rest) (ip + 1)
          | .bool _ :: _ =>
            .halt (.errored (.runtime ⟨"Unknown", instr.line, "Attempted to negate a non number"⟩))
          | .null :: _ =>
            .halt (.errored (.runtime ⟨"Unknown", instr.line, "Attempted to negate a non number"⟩))
        | .opConstant =>
          -- the unguarded `self.constants[self.instructions[self.ip + 1].opcode]`
          match ins[ip + 1]? with
          | none => .halt (.panicked .indexOOB)
          | some op2 =>
            match consts[op2.opcode]? with
            | none => .halt (.panicked .indexOOB)
            | some v => .cont (v :: stack) (ip + 2)
        | .opNull => .cont (.null :: stack) (ip + 1)
        | .opTrue => .cont (.bool true :: stack) (ip + 1)
        | .opFalse => .cont (.bool false :: stack) (ip + 1)
        | .opNot =>
          -- peek(0): Bool is popped and negated, Null is left alone, else error
          match stack with
          | [] => .halt (.errored .emptyStack)
          | .bool b :: rest => .cont (.bool (!b) :: rest) (ip + 1)
          | .null :: rest => .cont (.null :: rest) (ip + 1)  -- !null == null: do nothing
          | .number _ :: _ =>
            .halt (.errored (.runtime ⟨"Unknown", instr.line, "Attempted to use logical not on a non boolean"⟩))

/-- `VM::run`'s loop, iterating `runStep`.  The fuel only bounds the number
of iterations; `VM.run` supplies a provably sufficient amount. -/
def runLoop (fuel : Nat) (ins : List Operation) (consts : List Value)
    (stack : List Value) (ip : Nat) : RunOutcome :=
  match fuel with
  | 0 => .outOfFuel
  | fuel + 1 =>
    match runStep ins consts stack ip with
    | .halt r => r
    | .cont stack' ip' => runLoop fuel ins consts stack' ip'

/-- `VM::run` (the `stack_trace` printing has no semantic effect).  The
fuel `instructions.length + 1` is an upper bound on the loop's iterations:
`ip` strictly increases and the loop ends, one way or another, once `ip`
passes the end of the instruction vector. -/
def VM.run (vm : VM) : RunOutcome :=
  runLoop (vm.instructions.length + 1) vm.instructions vm.constants vm.stack vm.ip

/-- `VM::write_constant`: push, then return `(len - 1) as u8` — the length
is a `usize`, and the cast truncates it mod 256. -/
def write_constant (constants : List Value) (v : Value) : List Value × Nat :=
  ((constants ++ [v]), ((constants ++ [v]).length - 1) % 256)

end Petrel

namespace Petrel

/-! ## Theorems about the allocator (claim C5) -/

set_option maxRecDepth 100000 in
/-- C5, counterexample.  On a fully unmarked block with starting offset 0 the
code returns the hole `(0, 32768)`: its cursor is byte 0 — line 0, which the
conservative-skip branch explicitly exempts (`abs_index > 0`) — not byte 128
(line 1) as the claim states. -/
theorem C5_counterexample :
    BlockMeta.find_next_available_hole ⟨List.replicate 256 false, false⟩ 0 =
      some (0, 32768) ∧ (0 : Nat) ≠ 1 * LINE_SIZE := by
  constructor
  · decide
  · decide

set_option maxRecDepth 100000 in
/-- C5, amended: `find_next_available_hole` on an all-marked block returns
none; on a fully unmarked block with starting offset 0 it returns the hole
from byte 0 (line 0 is the one line never conservatively skipped) to the
block end `BLOCK_SIZE`. -/
theorem C5_amended :
    BlockMeta.find_next_available_hole ⟨List.replicate 256 true, false⟩ 0 = none ∧
    BlockMeta.find_next_available_hole ⟨List.replicate 256 false, false⟩ 0 =
      some (0, BLOCK_SIZE) := by
  constructor
  · decide
  · decide

/-! ## Theorems about the constant pool (claim C6) -/

set_option maxRecDepth 100000 in
/-- C6, counterexample.  With 256 constants already in the pool,
`write_constant` appends the 257th and returns index 0: `(257 - 1) as u8`
silently truncates, instead of any explicit policy. -/
theorem C6_counterexample :
    (write_constant (List.replicate 256 Value.null) Value.null).2 = 0 ∧
    (List.replicate 256 Value.null ++ [Value.null]).length - 1 = 256 ∧
    (0 : Nat) ≠ 256 := by
  refine ⟨by decide, by decide, by decide⟩

/-- C6, amended: `write_constant` always succeeds, appending the value and
returning `(new length - 1) mod 256`; the returned index equals
`new length - 1` exactly when the pool held fewer than 256 values before the
call, and silently wraps for the 257th constant onward. -/
theorem C6_amended (constants : List Value) (v : Value)
    (h : constants.length < 256) :
    (write_constant constants v).1 = constants ++ [v] ∧
    (write_constant constants v).2 = (constants ++ [v]).length - 1 := by
  refine ⟨rfl, ?_⟩
  simp only [write_constant, List.length_append, List.length_singleton]
  omega

/-- Witness for C6_amended at a one-element pool. -/
theorem C6_amended_witness :
    (write_constant [Value.null] (Value.number 3)).1 = [Value.null, Value.number 3] ∧
    (write_constant [Value.null] (Value.number 3)).2 = 1 :=
  C6_amended [Value.null] (Value.number 3) (by decide)

/-! ## Theorems about the literal opcodes (claim C1) -/

/-- C1: the VM cannot execute the literal/not opcodes at all.
`Opcode::try_from` stops at byte 6, so the bytes 7–10 that
`From<Opcode> for u8` assigns to `OpNull`/`OpTrue`/`OpFalse`/`OpNot` (and
that the compiler emits for `null`/`true`/`false`/`!`) are decode errors;
`run`'s call to `dissasemble_instruction` turns them into a panic before the
corresponding (dead) match arms could push a literal.  A unit `[OpTrue,
OpReturn]` panics instead of evaluating to `true`. -/
theorem C1_decode_gap :
    tryFromByte Opcode.opNull.toByte = .error (.invalidOpcodeConversion 7) ∧
    tryFromByte Opcode.opTrue.toByte = .error (.invalidOpcodeConversion 8) ∧
    tryFromByte Opcode.opFalse.toByte = .error (.invalidOpcodeConversion 9) ∧
    tryFromByte Opcode.opNot.toByte = .error (.invalidOpcodeConversion 10) ∧
    VM.run ⟨[⟨Opcode.opTrue.toByte, 1⟩, ⟨Opcode.opReturn.toByte, 1⟩], [], [], 0⟩ =
      .panicked (.decode 8) ∧
    VM.run ⟨[⟨Opcode.opNull.toByte, 1⟩, ⟨Opcode.opReturn.toByte, 1⟩], [], [], 0⟩ =
      .panicked (.decode 7) ∧
    VM.run ⟨[⟨Opcode.opNot.toByte, 1⟩, ⟨Opcode.opReturn.toByte, 1⟩], [], [.bool true], 0⟩ =
      .panicked (.decode 10) := by
  refine ⟨rfl, rfl, rfl, rfl, by decide, by decide, by decide⟩

end Petrel

namespace Petrel

/-- The step budget `VM.run` passes to `runLoop` cannot run out: the
instruction pointer strictly increases every iteration, so
`instructions.length - ip` bounds the remaining iterations. -/
theorem runStep_progress {ins : List Operation} {consts stack : List Value}
    {ip : Nat} {s2 : List Value} {ip2 : Nat}
    (h : runStep ins consts stack ip = .cont s2 ip2) :
    ip < ins.length ∧ (ip2 = ip + 1 ∨ ip2 = ip + 2) := by
  cases hget : ins[ip]? with
  | none =>
    unfold runStep at h
    simp only [hget] at h
    exact StepRes.noConfusion h
  | some instr =>
    have hip : ip < ins.length := (List.getElem?_eq_some.mp hget).1
    unfold runStep at h
    simp only [hget] at h
    repeat' split at h
    all_goals first
      | exact StepRes.noConfusion h
      | (refine ⟨hip, ?_⟩; injection h with h1 h2; omega)

theorem runStep_no_outOfFuel {ins : List Operation} {consts stack : List Value}
    {ip : Nat} : runStep ins consts stack ip ≠ .halt .outOfFuel := by
  unfold runStep
  repeat' split
  all_goals simp

/-- The step budget `VM.run` passes to `runLoop` cannot run out: the
instruction pointer strictly increases every iteration, so
`instructions.length - ip` bounds the remaining iterations. -/
theorem runLoop_fuel_sufficient :
    ∀ (fuel : Nat) (ins : List Operation) (consts stack : List Value) (ip : Nat),
      ins.length - ip < fuel →
      runLoop fuel ins consts stack ip ≠ .outOfFuel := by
  intro fuel
  induction fuel with
  | zero => intro ins consts stack ip h; omega
  | succ fuel ih =>
    intro ins consts stack ip h
    cases hstep : runStep ins consts stack ip with
    | halt r =>
      simp only [runLoop, hstep]
      intro hcon
      rw [hcon] at hstep
      exact runStep_no_outOfFuel hstep
    | cont s2 ip2 =>
      simp only [runLoop, hstep]
      obtain ⟨hip, hadv⟩ := runStep_progress hstep
      apply ih
      omega

/-! ## Theorems about the arithmetic opcodes (claim C3) -/

/-- C3, counterexample.  `OpAdd` with a non-Number on **top** of the stack
(stack `[Bool(true), Number(1)]`) does not fail with a runtime type error:
the `binary_op!` macro's outer `if let` has no else branch, so the
instruction is a silent no-op and `run` returns `Ok` with the stack
untouched. -/
theorem C3_counterexample :
    VM.run ⟨[⟨3, 7⟩, ⟨0, 7⟩], [], [.bool true, .number 1], 0⟩ =
      .ok [.bool true, .number 1] ∧
    ∀ e : VMError,
      VM.run ⟨[⟨3, 7⟩, ⟨0, 7⟩], [], [.bool true, .number 1], 0⟩ ≠ .errored e := by
  have h0 : VM.run ⟨[⟨3, 7⟩, ⟨0, 7⟩], [], [.bool true, .number 1], 0⟩ =
      .ok [.bool true, .number 1] := by decide
  refine ⟨h0, fun e h => ?_⟩
  rw [h0] at h
  exact RunOutcome.noConfusion h

/-- C3, amended.  For each arithmetic opcode (3 `OpAdd`, 4 `OpSubtract`,
5 `OpMultiply`, 6 `OpDivide`), executing it in a unit `[op, OpReturn]`:
with Numbers in both of the two top stack slots it pops both and pushes
`second-popped ∘ first-popped`; with a Number on top but a non-Number
second it fails with the runtime type error "Operands must be numbers";
with a non-Number on top it is a **silent no-op** (no pop, no error) —
not the unconditional type error the original claim states. -/
theorem C3_amended (b : Nat) (f : ℚ → ℚ → ℚ) (l l2 : Nat)
    (harith : (b = 3 ∧ f = (· + ·)) ∨ (b = 4 ∧ f = (· - ·)) ∨
              (b = 5 ∧ f = (· * ·)) ∨ (b = 6 ∧ f = (· / ·))) :
    (∀ (x y : ℚ) (s cs : List Value),
      VM.run ⟨[⟨b, l⟩, ⟨0, l2⟩], cs, .number x :: .number y :: s, 0⟩ =
        .ok (.number (f y x) :: s)) ∧
    (∀ (x : ℚ) (w : Value) (s cs : List Value), w.isNumber = false →
      VM.run ⟨[⟨b, l⟩, ⟨0, l2⟩], cs, .number x :: w :: s, 0⟩ =
        .errored (.runtime ⟨"Unknown", l, "Operands must be numbers"⟩)) ∧
    (∀ (v : Value) (s cs : List Value), v.isNumber = false →
      VM.run ⟨[⟨b, l⟩, ⟨0, l2⟩], cs, v :: s, 0⟩ = .ok (v :: s)) := by
  rcases harith with ⟨hb, hf⟩ | ⟨hb, hf⟩ | ⟨hb, hf⟩ | ⟨hb, hf⟩ <;>
    subst hb <;> subst hf <;>
    refine ⟨fun x y s cs => rfl,
            fun x w s cs hw => ?_,
            fun v s cs hv => ?_⟩ <;>
    first
      | (cases w with
          | number q => simp [Value.isNumber] at hw
          | bool c => rfl
          | null => rfl)
      | (cases v with
          | number q => simp [Value.isNumber] at hv
          | bool c => rfl
          | null => rfl)

/-- Witness for C3_amended: `OpAdd` on stack `[2, 5]` yields `5 + 2`,
and on a `Null` top is a no-op. -/
theorem C3_witness :
    VM.run ⟨[⟨3, 7⟩, ⟨0, 7⟩], [], [.number 2, .number 5], 0⟩ =
      .ok [.number (5 + 2)] ∧
    VM.run ⟨[⟨3, 7⟩, ⟨0, 7⟩], [], [.null], 0⟩ = .ok [.null] :=
  ⟨(C3_amended 3 (· + ·) 7 7 (Or.inl ⟨rfl, rfl⟩)).1 2 5 [] [],
   (C3_amended 3 (· + ·) 7 7 (Or.inl ⟨rfl, rfl⟩)).2.2 .null [] [] rfl⟩

/-! ## Theorems about the unguarded constant fetch (claim C10) -/

/-- The precondition of claim C10: every instruction whose opcode byte is 1
(`OpConstant`) is immediately followed by another `Operation` whose opcode
byte is a valid index into the constant pool. -/
def ConstantOperandsOk (ins : List Operation) (consts : List Value) : Prop :=
  ∀ i op, ins[i]? = some op → op.opcode = 1 →
    ∃ op2, ins[i + 1]? = some op2 ∧ op2.opcode < consts.length

theorem tryFromByte_constant_byte {b : Nat}
    (h : tryFromByte b = .ok .opConstant) : b = 1 := by
  unfold tryFromByte at h
  split_ifs at h <;> simp_all

/-- Under the C10 precondition the disassembler's unguarded indexes are in
bounds at every instruction `run` visits. -/
theorem dissasembleCheck_no_oob {ins : List Operation} {consts : List Value}
    (hok : ConstantOperandsOk ins consts) {ip : Nat} {instr : Operation}
    (hget : ins[ip]? = some instr) :
    dissasembleCheck ins consts ip ≠ some .indexOOB := by
  cases htf : tryFromByte instr.opcode with
  | error e => simp [dissasembleCheck, hget, htf]
  | ok code =>
    by_cases hc : code = .opConstant
    · subst hc
      obtain ⟨op2, hop2, hlt⟩ := hok ip instr hget (tryFromByte_constant_byte htf)
      simp [dissasembleCheck, hget, htf, hop2, List.getElem?_eq_getElem hlt]
    · simp [dissasembleCheck, hget, htf, hc]

/-- Under the C10 precondition a single step never takes the out-of-bounds
panic. -/
theorem runStep_no_indexOOB {ins : List Operation} {consts : List Value}
    (hok : ConstantOperandsOk ins consts) (stack : List Value) (ip : Nat) :
    runStep ins consts stack ip ≠ .halt (.panicked .indexOOB) := by
  cases hget : ins[ip]? with
  | none => unfold runStep; simp [hget]
  | some instr =>
    unfold runStep
    simp only [hget]
    cases hdc : dissasembleCheck ins consts ip with
    | some k =>
      have hne := dissasembleCheck_no_oob hok hget
      rw [hdc] at hne
      simp only []
      intro hcon
      apply hne
      injection hcon with h1
      injection h1 with h2
      rw [h2]
    | none =>
      cases htf : tryFromByte instr.opcode with
      | error e => simp
      | ok op =>
        cases op
        case opConstant =>
          obtain ⟨op2, hop2, hlt⟩ := hok ip instr hget (tryFromByte_constant_byte htf)
          simp [hop2, List.getElem?_eq_getElem hlt]
        all_goals repeat' split
        all_goals simp_all

/-- Under the C10 precondition `runLoop` never takes the out-of-bounds
panic, whatever the stack, instruction pointer and fuel. -/
theorem runLoop_no_indexOOB :
    ∀ (fuel : Nat) (ins : List Operation) (consts : List Value),
      ConstantOperandsOk ins consts →
      ∀ (stack : List Value) (ip : Nat),
        runLoop fuel ins consts stack ip ≠ .panicked .indexOOB := by
  intro fuel
  induction fuel with
  | zero => intro ins consts _ stack ip; simp [runLoop]
  | succ fuel ih =>
    intro ins consts hok stack ip
    cases hstep : runStep ins consts stack ip with
    | halt r =>
      simp only [runLoop, hstep]
      intro hcon
      rw [hcon] at hstep
      exact runStep_no_indexOOB hok stack ip hstep
    | cont s2 ip2 =>
      simp only [runLoop, hstep]
      exact ih ins consts hok s2 ip2

/-- C10: under the precondition that every `OpConstant` is immediately
followed by an `Operation` whose opcode byte indexes into the constant pool,
`run` never reaches an out-of-bounds direct index; and without it, `run`
panics via direct indexing — both with `OpConstant` as the last instruction
and with an operand byte at or past the pool length — instead of returning a
structured error. -/
theorem C10_constant_fetch :
    (∀ (fuel : Nat) (ins : List Operation) (consts : List Value),
      ConstantOperandsOk ins consts →
      ∀ (stack : List Value) (ip : Nat),
        runLoop fuel ins consts stack ip ≠ .panicked .indexOOB) ∧
    VM.run ⟨[⟨1, 1⟩], [.null], [], 0⟩ = .panicked .indexOOB ∧
    VM.run ⟨[⟨1, 1⟩, ⟨7, 1⟩, ⟨0, 1⟩], (List.replicate 5 Value.null), [], 0⟩ =
      .panicked .indexOOB := by
  refine ⟨runLoop_no_indexOOB, by decide, by decide⟩

end Petrel

namespace Petrel

/-! ## Scanner: `src/petrel/src/scanner.rs` with `src/petrel/src/token.rs`

The scanner's `TokenType`/`Token` (prefixed `S` here to keep them apart
from the compiler module's own copies) and the `Scanner` methods.  The
mutable fields `line` and `start` are threaded explicitly; `source` is the
immutable `Vec<char>`.  Self-recursive loops carry a step budget `fuel`,
whose exhaustion is the distinguished `fuelOut` result; every universal
theorem below quantifies over the budget. -/

/-- The scanner crate's `TokenType` (`src/petrel/src/token.rs`).  Note:
there is a `True` keyword kind but **no `Null` variant at all**. -/
inductive STokenType where
  | Dot | QuestionMark | Plus | Minus | Slash | Star | Greater | Less
  | Bang | Equal | Colon
  | LeftBracket | RightBracket | LeftBrace | RightBrace | LeftParen | RightParen
  | Arrow | GreaterEqual | LessEqual | DoubleEqual | DoubleColon | BangEqual
  | Class | Const | Else | False | For | From | Fun | If | In
  | Override | Promise | Return | Super | True | Use | Var | While
  | Identifier | String | Number | EOF | NL
deriving DecidableEq, Repr

/-- The scanner crate's `Token`. -/
structure SToken where
  tt : STokenType
  line : Nat
  start : Nat
  length : Nat
deriving DecidableEq, Repr

/-- The scanner-side `PetrelError` variants the scanner itself constructs. -/
inductive ScanErr where
  | unknownCharacter (c : Char)
  | missingDoubleQuote
deriving DecidableEq, Repr

/-- Result of a scanner operation: success, a returned scan error, or the
embedding-only fuel marker. -/
inductive SRes (α : Type) where
  | ok (a : α)
  | err (e : ScanErr)
  | fuelOut
deriving DecidableEq, Repr

/-- `Scanner::make_token`: the token starts at the current `start`. -/
def makeToken (line start : Nat) (tt : STokenType) (len : Nat) : SToken :=
  ⟨tt, line, start, len⟩

/-- `Scanner::make_consumed_token`: `start: self.start - len + 1`.  Over the
integers that is `start + 1 - len`, which is how it is written here so that
`Nat` subtraction does not truncate prematurely (in every reachable call
`len ≤ start + 1`, and release-mode `usize` wrap-around computes the same
value). -/
def makeConsumedToken (line start : Nat) (tt : STokenType) (len : Nat) : SToken :=
  ⟨tt, line, start + 1 - len, len⟩

/-- The `while let` loop of `Scanner::string`: `peek` a character; a
backslash consumes an extra character; a `"` returns (the token is built
from the **current** `start` and the accumulated content length); anything
else — newlines included, with no `line` bump anywhere in the loop — is
consumed into the literal.  Running off the end is the missing-quote
error.  Returns the content length and the final `start`. -/
def stringLoop (src : List Char) (fuel start length : Nat) : SRes (Nat × Nat) :=
  match fuel with
  | 0 => .fuelOut
  | fuel + 1 =>
    match src[start + 1]? with
    | none => .err .missingDoubleQuote
    | some c =>
      if c = '\\' then stringLoop src fuel (start + 2) (length + 2)
      else if c = '"' then .ok (length, start)
      else stringLoop src fuel (start + 1) (length + 1)

/-- `Scanner::string`: build the `String` token from the loop's result.
`self.line` is never written in `string`, so the token carries the line the
literal began on and the caller's `line` is unchanged. -/
def scanString (src : List Char) (fuel line start : Nat) : SRes (SToken × Nat) :=
  match stringLoop src fuel start 0 with
  | .fuelOut => .fuelOut
  | .err e => .err e
  | .ok (length, start2) => .ok (makeConsumedToken line start2 .String length, start2)

/-- The digit-consuming loop shared by the integer and fractional parts of
`Scanner::number`: `peek`, count digits, stop (without advancing) at the
first non-digit or at end of input. -/
def digitLoop (src : List Char) (fuel start length : Nat) : SRes (Nat × Nat) :=
  match fuel with
  | 0 => .fuelOut
  | fuel + 1 =>
    match src[start + 1]? with
    | none => .ok (start, length)
    | some c =>
      if c.isDigit then digitLoop src fuel (start + 1) (length + 1)
      else .ok (start, length)

/-- `Scanner::number`: integer part, then at most one `.`-delimited
fractional part; a second `.` is left for the next token. -/
def scanNumber (src : List Char) (fuel line start : Nat) : SRes (SToken × Nat) :=
  match digitLoop src fuel start 1 with
  | .fuelOut => .fuelOut
  | .err e => .err e
  | .ok (start1, len1) =>
    match src[start1 + 1]? with
    | none => .ok (makeConsumedToken line start1 .Number len1, start1)
    | some c =>
      if c = '.' then
        match digitLoop src fuel (start1 + 1) (len1 + 1) with
        | .fuelOut => .fuelOut
        | .err e => .err e
        | .ok (start2, len2) => .ok (makeConsumedToken line start2 .Number len2, start2)
      else .ok (makeConsumedToken line start1 .Number len1, start1)

/-- `Scanner::comment`'s `while let Some(c) = self.next()` loop: `next`
first advances, then reads; a newline bumps the line counter and breaks.
Returns `(line, start)` after the loop body, before the trailing
`advance`. -/
def commentLoop (src : List Char) (fuel line start : Nat) : SRes (Nat × Nat) :=
  match fuel with
  | 0 => .fuelOut
  | fuel + 1 =>
    match src[start + 1]? with
    | none => .ok (line, start + 1)
    | some c =>
      if c = '\n' then .ok (line + 1, start + 1)
      else commentLoop src fuel line (start + 1)

/-- `Scanner::comment`: the loop, then one more `advance`. -/
def scanComment (src : List Char) (fuel line start : Nat) : SRes (Nat × Nat) :=
  match commentLoop src fuel line start with
  | .fuelOut => .fuelOut
  | .err e => .err e
  | .ok (line2, start2) => .ok (line2, start2 + 1)

/-- `Scanner::identifier(prefix)`: `len` starts at the prefix's length,
then alphanumeric/underscore characters are consumed by `peek`/`advance`.
Only the prefix's length matters for the produced token.  (Rust's
`is_alphanumeric` is Unicode-aware; `Char.isAlphanum` stands in for it —
the claims below only exercise ASCII.) -/
def identLoop (src : List Char) (fuel start len : Nat) : SRes (Nat × Nat) :=
  match fuel with
  | 0 => .fuelOut
  | fuel + 1 =>
    match src[start + 1]? with
    | none => .ok (start, len)
    | some c =>
      if c.isAlphanum ∨ c = '_' then identLoop src fuel (start + 1) (len + 1)
      else .ok (start, len)

/-- `Scanner::identifier`, producing the `Identifier` token. -/
def scanIdentifier (src : List Char) (fuel line start pfxLen : Nat) :
    SRes (SToken × Nat) :=
  match identLoop src fuel start pfxLen with
  | .fuelOut => .fuelOut
  | .err e => .err e
  | .ok (start2, len2) => .ok (makeConsumedToken line start2 .Identifier len2, start2)

/-- The `for c in to_check.chars().skip(length)` loop of
`Scanner::check_word`, structural on the characters of the keyword still to
check.  A mismatching or missing character falls back to
`identifier(&to_check[0..length])`; after the keyword, a whitespace or
end-of-input peek accepts the keyword, any other trailing character falls
back to `identifier(to_check)` (the full keyword as prefix). -/
def checkWordLoop (src : List Char) (fuel line start : Nat)
    (remaining : List Char) (length : Nat) (fullLen : Nat) (kw : STokenType) :
    SRes (SToken × Nat) :=
  match remaining with
  | [] =>
    match src[start + 1]? with
    | none => .ok (makeConsumedToken line start kw length, start)
    | some l =>
      if l.isWhitespace then .ok (makeConsumedToken line start kw length, start)
      else scanIdentifier src fuel line start fullLen
  | c :: rest =>
    match src[start + 1]? with
    | none => scanIdentifier src fuel line start length
    | some l =>
      if c ≠ l then scanIdentifier src fuel line start length
      else checkWordLoop src fuel line (start + 1) rest (length + 1) fullLen kw

/-- `Scanner::check_word(to_check, length, keyword)`. -/
def checkWord (src : List Char) (fuel line start : Nat)
    (toCheck : List Char) (length : Nat) (kw : STokenType) :
    SRes (SToken × Nat) :=
  checkWordLoop src fuel line start (toCheck.drop length) length toCheck.length kw

/-- `Scanner::keyword`: first-letter dispatch.  The `c`/`f`/`i` branches
call `next()` (advancing `start`) before looking at the second letter; their
`_` fallbacks then call `identifier` with only the one-letter prefix, even
though two characters have been consumed.  There is no branch for `t` or
`n`, so `true` and `null` take the plain-identifier fallback.  The prefix
length Rust passes is `c.to_string().len()`, a UTF-8 byte count. -/
def scanKeyword (src : List Char) (fuel line start : Nat) : SRes (SToken × Nat) :=
  match src[start]? with
  | none => .ok (makeToken line start .EOF 0, start)
  | some c =>
    if c = 'e' then checkWord src fuel line start "else".toList 1 .Else
    else if c = 'o' then checkWord src fuel line start "override".toList 1 .Override
    else if c = 'p' then checkWord src fuel line start "promise".toList 1 .Promise
    else if c = 'r' then checkWord src fuel line start "return".toList 1 .Return
    else if c = 's' then checkWord src fuel line start "super".toList 1 .Super
    else if c = 'u' then checkWord src fuel line start "use".toList 1 .Use
    else if c = 'v' then checkWord src fuel line start "var".toList 1 .Var
    else if c = 'w' then checkWord src fuel line start "while".toList 1 .While
    else if c = 'c' then
      match src[start + 1]? with
      | some 'l' => checkWord src fuel line (start + 1) "class".toList 2 .Class
      | some 'o' => checkWord src fuel line (start + 1) "const".toList 2 .Const
      | _ => scanIdentifier src fuel line (start + 1) 1
    else if c = 'f' then
      match src[start + 1]? with
      | some 'a' => checkWord src fuel line (start + 1) "false".toList 2 .False
      | some 'o' => checkWord src fuel line (start + 1) "for".toList 2 .For
      | some 'r' => checkWord src fuel line (start + 1) "from".toList 2 .From
      | some 'u' => checkWord src fuel line (start + 1) "fun".toList 2 .Fun
      | _ => scanIdentifier src fuel line (start + 1) 1
    else if c = 'i' then
      match src[start + 1]? with
      | some 'f' => checkWord src fuel line (start + 1) "if".toList 2 .If
      | some 'n' => checkWord src fuel line (start + 1) "in".toList 2 .In
      | _ => scanIdentifier src fuel line (start + 1) 1
    else scanIdentifier src fuel line start c.utf8Size

/-- `Scanner::scan_token`: one token (or a self-recursive skip over a
comment or whitespace).  Returns the token together with the scanner's
`line` and `start` afterwards; `scan`'s own trailing `advance` is not
included.  Note `make_token` alone never consumes input: two-character
tokens advance only via `scan`'s single `advance`. -/
def scanToken (src : List Char) (fuel line start : Nat) :
    SRes (SToken × Nat × Nat) :=
  match fuel with
  | 0 => .fuelOut
  | fuel + 1 =>
    match src[start]? with
    | none => .ok (makeToken line start .EOF 0, line, start)
    | some c =>
      if c = '.' then .ok (makeToken line start .Dot 1, line, start)
      else if c = '?' then .ok (makeToken line start .QuestionMark 1, line, start)
      else if c = '+' then .ok (makeToken line start .Plus 1, line, start)
      else if c = '/' then .ok (makeToken line start .Slash 1, line, start)
      else if c = '*' then .ok (makeToken line start .Star 1, line, start)
      else if c = '(' then .ok (makeToken line start .LeftParen 1, line, start)
      else if c = ')' then .ok (makeToken line start .RightParen 1, line, start)
      else if c = '{' then .ok (makeToken line start .LeftBrace 1, line, start)
      else if c = '}' then .ok (makeToken line start .RightBrace 1, line, start)
      else if c = '[' then .ok (makeToken line start .LeftBracket 1, line, start)
      else if c = ']' then .ok (makeToken line start .RightBracket 1, line, start)
      else if c = '!' then
        match src[start + 1]? with
        | some '=' => .ok (makeToken line start .BangEqual 2, line, start)
        | _ => .ok (makeToken line start .Bang 1, line, start)
      else if c = '-' then
        match src[start + 1]? with
        | some '>' => .ok (makeToken line start .Arrow 2, line, start)
        | _ => .ok (makeToken line start .Minus 1, line, start)
      else if c = '<' then
        match src[start + 1]? with
        | some '=' => .ok (makeToken line start .LessEqual 2, line, start)
        | _ => .ok (makeToken line start .Less 1, line, start)
      else if c = '>' then
        match src[start + 1]? with
        | some '=' => .ok (makeToken line start .GreaterEqual 2, line, start)
        | _ => .ok (makeToken line start .Greater 1, line, start)
      else if c = ':' then
        match src[start + 1]? with
        | some ':' => .ok (makeToken line start .DoubleColon 2, line, start)
        | _ => .ok (makeToken line start .Colon 1, line, start)
      else if c = '=' then
        match src[start + 1]? with
        | some '=' => .ok (makeToken line start .DoubleEqual 2, line, start)
        | _ => .ok (makeToken line start .Equal 1, line, start)
      else if c = '"' then
        match scanString src fuel line start with
        | .fuelOut => .fuelOut
        | .err e => .err e
        | .ok (tok, start2) => .ok (tok, line, start2 + 1)  -- go past remaining quote
      else if c = '#' then
        match scanComment src fuel line start with
        | .fuelOut => .fuelOut
        | .err e => .err e
        | .ok (line2, start2) => scanToken src fuel line2 start2
      else if c = '\n' then
        .ok (makeToken (line + 1) start .NL 1, line + 1, start)
      else if c.isDigit then
        match scanNumber src fuel line start with
        | .fuelOut => .fuelOut
        | .err e => .err e
        | .ok (tok, start2) => .ok (tok, line, start2)
      else if c.isAlpha ∨ c = '_' then
        match scanKeyword src fuel line start with
        | .fuelOut => .fuelOut
        | .err e => .err e
        | .ok (tok, start2) => .ok (tok, line, start2)
      else if c.isWhitespace then
        scanToken src fuel line (start + 1)
      else
        .err (.unknownCharacter c)

/-- `Scanner::scan`'s `while !end_of_file(tokens)` loop: scan a token, push
it, `advance`, until the pushed token is `EOF`. -/
def scanLoop (src : List Char) (fuel line start : Nat) (acc : List SToken) :
    SRes (List SToken) :=
  match fuel with
  | 0 => .fuelOut
  | fuel + 1 =>
    match acc.getLast? with
    | some t =>
      if t.tt = .EOF then .ok acc
      else
        match scanToken src fuel line start with
        | .fuelOut => .fuelOut
        | .err e => .err e
        | .ok (tok, line2, start2) => scanLoop src fuel line2 (start2 + 1) (acc ++ [tok])
    | none =>
      match scanToken src fuel line start with
      | .fuelOut => .fuelOut
      | .err e => .err e
      | .ok (tok, line2, start2) => scanLoop src fuel line2 (start2 + 1) (acc ++ [tok])

/-- `Scanner::scan` on a fresh scanner (`line = 1`, `start = 0`).  The
budget `2 * length + 8` covers the loop: `start` grows by at least one per
pushed token and per skipped character. -/
def scan (src : List Char) : SRes (List SToken) :=
  scanLoop src (2 * src.length + 8) 1 0 []

end Petrel

namespace Petrel

/-- `Token::contained_string` (`src/petrel/src/token.rs`): recover the
lexeme by slicing `source[start .. start + length]`; the Rust slice is
`.expect("Text out of range")`, so an out-of-bounds span is `none` here
(a panic there). -/
def containedString (src : List Char) (t : SToken) : Option (List Char) :=
  if t.start + t.length ≤ src.length then some ((src.drop t.start).take t.length)
  else none

/-! ## Theorems about string literals and line counting (claim C7) -/

/-- `Scanner::string` stamps the produced token with the caller's `line`
(the function body never writes `self.line`). -/
theorem scanString_line {src : List Char} {fuel line start : Nat}
    {tok : SToken} {start2 : Nat}
    (h : scanString src fuel line start = .ok (tok, start2)) : tok.line = line := by
  unfold scanString at h
  split at h
  · exact SRes.noConfusion h
  · exact SRes.noConfusion h
  · injection h with h1
    injection h1 with h2 h3
    rw [← h2]
    rfl

/-- C7, amended: scanning a string literal consumes embedded newlines
without terminating the literal but also **without incrementing the line
counter** — `Scanner::string` has no `line += 1` — so the scanner's line
after the literal, and the line stamped on the literal itself, equal the
line the string began on, whatever the contents (k newlines give a shift of
0, not k). -/
theorem C7_amended (src : List Char) (fuel line start : Nat) (tok : SToken)
    (line2 start2 : Nat) (hq : src[start]? = some '"')
    (h : scanToken src fuel line start = .ok (tok, line2, start2)) :
    line2 = line ∧ tok.line = line := by
  match fuel with
  | 0 => exact absurd h (by simp [scanToken])
  | fuel + 1 =>
    rw [scanToken] at h
    rw [hq] at h
    simp only [reduceIte, reduceCtorEq] at h
    cases hs : scanString src fuel line start with
    | fuelOut => rw [hs] at h; exact SRes.noConfusion h
    | err e => rw [hs] at h; exact SRes.noConfusion h
    | ok a =>
      obtain ⟨tok0, s2⟩ := a
      rw [hs] at h
      injection h with h1
      injection h1 with h2 h3
      injection h3 with h4 h5
      exact ⟨h4.symm, h2 ▸ scanString_line hs⟩

/-- C7, counterexample.  Scanning `"a\nb" x`: the string literal contains
one embedded newline (the literal does not terminate: its token spans 3
characters), yet the following token `x` carries line 1, not the claimed
1 + 1 = 2. -/
theorem C7_counterexample :
    scan ("\"a\nb\" x".toList) =
      .ok [⟨.String, 1, 1, 3⟩, ⟨.Identifier, 1, 6, 1⟩, ⟨.EOF, 1, 7, 0⟩] ∧
    (1 : Nat) ≠ 1 + 1 := by
  refine ⟨by decide, by decide⟩

/-- Witness for C7_amended at the same concrete literal. -/
theorem C7_witness :
    (1 : Nat) = 1 ∧ SToken.line ⟨.String, 1, 1, 3⟩ = 1 :=
  C7_amended ("\"a\nb\" x".toList) 20 1 0 ⟨.String, 1, 1, 3⟩ 1 4
    (by decide) (by decide)

/-! ## Theorems about token spans (claim C8) -/

/-- C8: the off-by-one in `Scanner::keyword`'s `c`/`f`/`i` fallbacks.
`"cat"` scans as a single Identifier token whose span `[1, 3)` slices back
to `"at"`, not the original lexeme `"cat"`; `"c"` scans to a token with
`start + length = 2`, exceeding the source length 1, so the repository's
own `contained_string` lexeme recovery panics on it (`none` here); and a
comment running to end-of-input leaves even the EOF token's `start` past
the source length. -/
theorem C8_span_bug :
    scan ("cat".toList) = .ok [⟨.Identifier, 1, 1, 2⟩, ⟨.EOF, 1, 3, 0⟩] ∧
    containedString ("cat".toList) ⟨.Identifier, 1, 1, 2⟩ = some ("at".toList) ∧
    some ("at".toList) ≠ some ("cat".toList) ∧
    scan ("c".toList) = .ok [⟨.Identifier, 1, 1, 1⟩, ⟨.EOF, 1, 2, 0⟩] ∧
    containedString ("c".toList) ⟨.Identifier, 1, 1, 1⟩ = none ∧
    1 + 1 > ("c".toList).length ∧
    scan ("#ab".toList) = .ok [⟨.EOF, 1, 4, 0⟩] ∧
    4 + 0 > ("#ab".toList).length := by
  refine ⟨by decide, by decide, by decide, by decide, by decide, by decide,
    by decide, by decide⟩

end Petrel

namespace Petrel

/-! ## No `True` keyword token, `true`/`null` as identifiers (claim C9) -/

theorem scanIdentifier_tt {src : List Char} {fuel line start pfxLen : Nat}
    {tok : SToken} {s2 : Nat}
    (h : scanIdentifier src fuel line start pfxLen = .ok (tok, s2)) :
    tok.tt = .Identifier := by
  unfold scanIdentifier at h
  split at h <;> try exact SRes.noConfusion h
  injection h with h1
  injection h1 with h2 h3
  rw [← h2]
  rfl

theorem checkWordLoop_tt {src : List Char} :
    ∀ (remaining : List Char) (fuel line start length fullLen : Nat)
      (kw : STokenType) (tok : SToken) (s2 : Nat),
      checkWordLoop src fuel line start remaining length fullLen kw = .ok (tok, s2) →
      tok.tt = kw ∨ tok.tt = .Identifier := by
  intro remaining
  induction remaining with
  | nil =>
    intro fuel line start length fullLen kw tok s2 h
    unfold checkWordLoop at h
    split at h
    · injection h with h1; injection h1 with h2 h3; exact Or.inl (by rw [← h2]; rfl)
    · split at h
      · injection h with h1; injection h1 with h2 h3; exact Or.inl (by rw [← h2]; rfl)
      · exact Or.inr (scanIdentifier_tt h)
  | cons c rest ih =>
    intro fuel line start length fullLen kw tok s2 h
    unfold checkWordLoop at h
    split at h
    · exact Or.inr (scanIdentifier_tt h)
    · split at h
      · exact Or.inr (scanIdentifier_tt h)
      · exact ih fuel line (start + 1) (length + 1) fullLen kw tok s2 h



theorem checkWord_tt {src : List Char} {fuel line start length : Nat}
    {toCheck : List Char} {kw : STokenType} {tok : SToken} {s2 : Nat}
    (h : checkWord src fuel line start toCheck length kw = .ok (tok, s2)) :
    tok.tt = kw ∨ tok.tt = .Identifier :=
  checkWordLoop_tt _ _ _ _ _ _ _ _ _ h

theorem tt_ne_true_of_kw {tok : SToken} {kw : STokenType} (hkw : kw ≠ .True)
    (h : tok.tt = kw ∨ tok.tt = .Identifier) : tok.tt ≠ .True := by
  rcases h with h | h <;> rw [h]
  · exact hkw
  · decide

theorem scanKeyword_tt {src : List Char} {fuel line start : Nat}
    {tok : SToken} {s2 : Nat}
    (h : scanKeyword src fuel line start = .ok (tok, s2)) :
    tok.tt ≠ .True := by
  unfold scanKeyword at h
  split at h
  · injection h with h1
    injection h1 with h2 h3
    subst h2
    simp [makeToken]
  · rename_i c heq
    by_cases h1 : c = 'e'
    · rw [if_pos h1] at h; exact tt_ne_true_of_kw (by decide) (checkWord_tt h)
    rw [if_neg h1] at h
    by_cases h2 : c = 'o'
    · rw [if_pos h2] at h; exact tt_ne_true_of_kw (by decide) (checkWord_tt h)
    rw [if_neg h2] at h
    by_cases h3 : c = 'p'
    · rw [if_pos h3] at h; exact tt_ne_true_of_kw (by decide) (checkWord_tt h)
    rw [if_neg h3] at h
    by_cases h4 : c = 'r'
    · rw [if_pos h4] at h; exact tt_ne_true_of_kw (by decide) (checkWord_tt h)
    rw [if_neg h4] at h
    by_cases h5 : c = 's'
    · rw [if_pos h5] at h; exact tt_ne_true_of_kw (by decide) (checkWord_tt h)
    rw [if_neg h5] at h
    by_cases h6 : c = 'u'
    · rw [if_pos h6] at h; exact tt_ne_true_of_kw (by decide) (checkWord_tt h)
    rw [if_neg h6] at h
    by_cases h7 : c = 'v'
    · rw [if_pos h7] at h; exact tt_ne_true_of_kw (by decide) (checkWord_tt h)
    rw [if_neg h7] at h
    by_cases h8 : c = 'w'
    · rw [if_pos h8] at h; exact tt_ne_true_of_kw (by decide) (checkWord_tt h)
    rw [if_neg h8] at h
    by_cases h9 : c = 'c'
    · rw [if_pos h9] at h
      split at h
      · exact tt_ne_true_of_kw (by decide) (checkWord_tt h)
      · exact tt_ne_true_of_kw (by decide) (checkWord_tt h)
      · have h' := scanIdentifier_tt h; rw [h']; decide
    rw [if_neg h9] at h
    by_cases h10 : c = 'f'
    · rw [if_pos h10] at h
      split at h
      · exact tt_ne_true_of_kw (by decide) (checkWord_tt h)
      · exact tt_ne_true_of_kw (by decide) (checkWord_tt h)
      · exact tt_ne_true_of_kw (by decide) (checkWord_tt h)
      · exact tt_ne_true_of_kw (by decide) (checkWord_tt h)
      · have h' := scanIdentifier_tt h; rw [h']; decide
    rw [if_neg h10] at h
    by_cases h11 : c = 'i'
    · rw [if_pos h11] at h
      split at h
      · exact tt_ne_true_of_kw (by decide) (checkWord_tt h)
      · exact tt_ne_true_of_kw (by decide) (checkWord_tt h)
      · have h' := scanIdentifier_tt h; rw [h']; decide
    rw [if_neg h11] at h
    have h' := scanIdentifier_tt h; rw [h']; decide



theorem scanString_tt {src : List Char} {fuel line start : Nat}
    {tok : SToken} {s2 : Nat}
    (h : scanString src fuel line start = .ok (tok, s2)) : tok.tt = .String := by
  unfold scanString at h
  split at h <;> try exact SRes.noConfusion h
  injection h with h1
  injection h1 with h2 h3
  rw [← h2]
  rfl

theorem scanNumber_tt {src : List Char} {fuel line start : Nat}
    {tok : SToken} {s2 : Nat}
    (h : scanNumber src fuel line start = .ok (tok, s2)) : tok.tt = .Number := by
  unfold scanNumber at h
  repeat' split at h
  all_goals try exact SRes.noConfusion h
  all_goals (injection h with h1; injection h1 with h2 h3; rw [← h2]; rfl)

theorem scanToken_tt {src : List Char} :
    ∀ (fuel line start : Nat) (tok : SToken) (l2 s2 : Nat),
      scanToken src fuel line start = .ok (tok, l2, s2) → tok.tt ≠ .True := by
  intro fuel
  induction fuel with
  | zero =>
    intro line start tok l2 s2 h
    exact absurd h (by simp [scanToken])
  | succ fuel ih =>
    intro line start tok l2 s2 h
    rw [scanToken] at h
    split at h
    · injection h with h1
      injection h1 with h2 h3
      subst h2
      simp [makeToken]
    rename_i c heq
    by_cases hb1 : c = '.'
    · rw [if_pos hb1] at h
      injection h with h1
      injection h1 with h2 h3
      subst h2
      simp [makeToken]
    rw [if_neg hb1] at h
    by_cases hb2 : c = '?'
    · rw [if_pos hb2] at h
      injection h with h1
      injection h1 with h2 h3
      subst h2
      simp [makeToken]
    rw [if_neg hb2] at h
    by_cases hb3 : c = '+'
    · rw [if_pos hb3] at h
      injection h with h1
      injection h1 with h2 h3
      subst h2
      simp [makeToken]
    rw [if_neg hb3] at h
    by_cases hb4 : c = '/'
    · rw [if_pos hb4] at h
      injection h with h1
      injection h1 with h2 h3
      subst h2
      simp [makeToken]
    rw [if_neg hb4] at h
    by_cases hb5 : c = '*'
    · rw [if_pos hb5] at h
      injection h with h1
      injection h1 with h2 h3
      subst h2
      simp [makeToken]
    rw [if_neg hb5] at h
    by_cases hb6 : c = '('
    · rw [if_pos hb6] at h
      injection h with h1
      injection h1 with h2 h3
      subst h2
      simp [makeToken]
    rw [if_neg hb6] at h
    by_cases hb7 : c = ')'
    · rw [if_pos hb7] at h
      injection h with h1
      injection h1 with h2 h3
      subst h2
      simp [makeToken]
    rw [if_neg hb7] at h
    by_cases hb8 : c = '{'
    · rw [if_pos hb8] at h
      injection h with h1
      injection h1 with h2 h3
      subst h2
      simp [makeToken]
    rw [if_neg hb8] at h
    by_cases hb9 : c = '}'
    · rw [if_pos hb9] at h
      injection h with h1
      injection h1 with h2 h3
      subst h2
      simp [makeToken]
    rw [if_neg hb9] at h
    by_cases hb10 : c = '['
    · rw [if_pos hb10] at h
      injection h with h1
      injection h1 with h2 h3
      subst h2
      simp [makeToken]
    rw [if_neg hb10] at h
    by_cases hb11 : c = ']'
    · rw [if_pos hb11] at h
      injection h with h1
      injection h1 with h2 h3
      subst h2
      simp [makeToken]
    rw [if_neg hb11] at h
    by_cases hb12 : c = '!'
    · rw [if_pos hb12] at h
      split at h
      · injection h with h1; injection h1 with h2 h3; subst h2; simp [makeToken]
      · injection h with h1; injection h1 with h2 h3; subst h2; simp [makeToken]
    rw [if_neg hb12] at h
    by_cases hb13 : c = '-'
    · rw [if_pos hb13] at h
      split at h
      · injection h with h1; injection h1 with h2 h3; subst h2; simp [makeToken]
      · injection h with h1; injection h1 with h2 h3; subst h2; simp [makeToken]
    rw [if_neg hb13] at h
    by_cases hb14 : c = '<'
    · rw [if_pos hb14] at h
      split at h
      · injection h with h1; injection h1 with h2 h3; subst h2; simp [makeToken]
      · injection h with h1; injection h1 with h2 h3; subst h2; simp [makeToken]
    rw [if_neg hb14] at h
    by_cases hb15 : c = '>'
    · rw [if_pos hb15] at h
      split at h
      · injection h with h1; injection h1 with h2 h3; subst h2; simp [makeToken]
      · injection h with h1; injection h1 with h2 h3; subst h2; simp [makeToken]
    rw [if_neg hb15] at h
    by_cases hb16 : c = ':'
    · rw [if_pos hb16] at h
      split at h
      · injection h with h1; injection h1 with h2 h3; subst h2; simp [makeToken]
      · injection h with h1; injection h1 with h2 h3; subst h2; simp [makeToken]
    rw [if_neg hb16] at h
    by_cases hb17 : c = '='
    · rw [if_pos hb17] at h
      split at h
      · injection h with h1; injection h1 with h2 h3; subst h2; simp [makeToken]
      · injection h with h1; injection h1 with h2 h3; subst h2; simp [makeToken]
    rw [if_neg hb17] at h
    by_cases hb18 : c = '"'
    · rw [if_pos hb18] at h
      cases hs : scanString src fuel line start with
      | fuelOut => rw [hs] at h; exact SRes.noConfusion h
      | err e => rw [hs] at h; exact SRes.noConfusion h
      | ok a =>
        obtain ⟨tok0, start2⟩ := a
        rw [hs] at h
        injection h with h1
        injection h1 with h2 h3
        subst h2
        intro hcon
        have h' := scanString_tt hs
        rw [hcon] at h'
        exact STokenType.noConfusion h'
    rw [if_neg hb18] at h
    by_cases hb19 : c = '#'
    · rw [if_pos hb19] at h
      cases hs : scanComment src fuel line start with
      | fuelOut => rw [hs] at h; exact SRes.noConfusion h
      | err e => rw [hs] at h; exact SRes.noConfusion h
      | ok a =>
        obtain ⟨line3, start3⟩ := a
        rw [hs] at h
        exact ih _ _ _ _ _ h
    rw [if_neg hb19] at h
    by_cases hb20 : c = '\n'
    · rw [if_pos hb20] at h
      injection h with h1
      injection h1 with h2 h3
      subst h2
      simp [makeToken]
    rw [if_neg hb20] at h
    by_cases hb21 : c.isDigit
    · rw [if_pos hb21] at h
      cases hs : scanNumber src fuel line start with
      | fuelOut => rw [hs] at h; exact SRes.noConfusion h
      | err e => rw [hs] at h; exact SRes.noConfusion h
      | ok a =>
        obtain ⟨tok0, start2⟩ := a
        rw [hs] at h
        injection h with h1
        injection h1 with h2 h3
        subst h2
        intro hcon
        have h' := scanNumber_tt hs
        rw [hcon] at h'
        exact STokenType.noConfusion h'
    rw [if_neg hb21] at h
    by_cases hb22 : c.isAlpha ∨ c = '_'
    · rw [if_pos hb22] at h
      cases hs : scanKeyword src fuel line start with
      | fuelOut => rw [hs] at h; exact SRes.noConfusion h
      | err e => rw [hs] at h; exact SRes.noConfusion h
      | ok a =>
        obtain ⟨tok0, start2⟩ := a
        rw [hs] at h
        injection h with h1
        injection h1 with h2 h3
        subst h2
        exact scanKeyword_tt hs
    rw [if_neg hb22] at h
    by_cases hb23 : c.isWhitespace
    · rw [if_pos hb23] at h
      exact ih _ _ _ _ _ h
    rw [if_neg hb23] at h
    exact SRes.noConfusion h



theorem scanLoop_no_true {src : List Char} :
    ∀ (fuel line start : Nat) (acc out : List SToken),
      scanLoop src fuel line start acc = .ok out →
      (∀ t ∈ acc, t.tt ≠ .True) → ∀ t ∈ out, t.tt ≠ .True := by
  intro fuel
  induction fuel with
  | zero =>
    intro line start acc out h hacc
    exact absurd h (by simp [scanLoop])
  | succ fuel ih =>
    intro line start acc out h hacc
    rw [scanLoop] at h
    split at h
    · split at h
      · injection h with h1
        subst h1
        exact hacc
      · cases hs : scanToken src fuel line start with
        | fuelOut => rw [hs] at h; exact SRes.noConfusion h
        | err e => rw [hs] at h; exact SRes.noConfusion h
        | ok a =>
          obtain ⟨tok, line2, start2⟩ := a
          rw [hs] at h
          refine ih line2 (start2 + 1) (acc ++ [tok]) out h ?_
          intro t ht
          rcases List.mem_append.mp ht with ht | ht
          · exact hacc t ht
          · rw [List.mem_singleton.mp ht]
            exact scanToken_tt _ _ _ _ _ _ hs
    · cases hs : scanToken src fuel line start with
      | fuelOut => rw [hs] at h; exact SRes.noConfusion h
      | err e => rw [hs] at h; exact SRes.noConfusion h
      | ok a =>
        obtain ⟨tok, line2, start2⟩ := a
        rw [hs] at h
        refine ih line2 (start2 + 1) (acc ++ [tok]) out h ?_
        intro t ht
        rcases List.mem_append.mp ht with ht | ht
        · exact hacc t ht
        · rw [List.mem_singleton.mp ht]
          exact scanToken_tt _ _ _ _ _ _ hs



/-- C9: the scanner's keyword dispatch never yields the `True` token kind
(no branch starts with `t` or `n`, and `check_word` is never called with
`True`): every successful scan, from any state and accumulator free of
`True` tokens, stays free of them; concretely, the words `true` and `null`
scan as single `Identifier` tokens (`STokenType` has no `Null` variant at
all for `null` to scan to). -/
theorem C9_no_true_token :
    (∀ (src : List Char) (fuel line start : Nat) (acc out : List SToken),
      scanLoop src fuel line start acc = .ok out →
      (∀ t ∈ acc, t.tt ≠ .True) → ∀ t ∈ out, t.tt ≠ .True) ∧
    scan ("true".toList) = .ok [⟨.Identifier, 1, 0, 4⟩, ⟨.EOF, 1, 4, 0⟩] ∧
    scan ("null".toList) = .ok [⟨.Identifier, 1, 0, 4⟩, ⟨.EOF, 1, 4, 0⟩] :=
  ⟨fun _ => scanLoop_no_true, by decide, by decide⟩

end Petrel

namespace Petrel

/-! ## Compiler: `src/petrel/src/compiler/compiler.rs` and
`src/petrel/src/compiler/token.rs`

The compiler module has its own `TokenType`/`Token` (prefixed `C` here).
The parse-rule table's function pointers are defunctionalised into small
enums dispatched inside `parsePrec` — the rewrite §9 of the spec itself
prescribes — and the bodies of the handlers (`number`, `grouping`, `unary`,
`literal`, `binary`) are inlined at their dispatch sites.  Mutable compiler
state is a `CState` threaded through every operation; `panic!`/`expect`
terminations are the `panicked` outcome. -/

/-- The compiler crate's `TokenType` (`src/petrel/src/compiler/token.rs`):
this copy, unlike the scanner crate's, has `Null`, `Comma`, `Impl`,
`Struct`, `This` and `Trait`. -/
inductive CTokenType where
  | Dot | QuestionMark | Plus | Minus | Slash | Star | Greater | Less
  | Bang | Equal | Colon | Comma
  | LeftBracket | RightBracket | LeftBrace | RightBrace | LeftParen | RightParen
  | Arrow | GreaterEqual | LessEqual | DoubleEqual | DoubleColon | BangEqual
  | Const | Else | False | For | From | Fun | If | Impl | In | Null
  | Return | Struct | Super | This | Trait | True | Use | Var | While
  | Identifier | String | Number | EOF | NL
deriving DecidableEq, Repr

/-- The compiler crate's `Token`. -/
structure CToken where
  tt : CTokenType
  line : Nat
  start : Nat
  length : Nat
deriving DecidableEq, Repr

/-- `Precedence` as its `u8` ordinal (None = 0 .. Primary = 10); the
`From<u8>` impl saturates everything above 10 to `Primary`. -/
def precFromNat (p : Nat) : Nat := if p ≤ 10 then p else 10

def precNone : Nat := 0
def precAssignment : Nat := 1
def precTerm : Nat := 6
def precFactor : Nat := 7

/-- The prefix handlers of the `ParseRule` table, as handler names instead
of function pointers. -/
inductive PrefixKind where
  | number | grouping | unary | literal
deriving DecidableEq, Repr

/-- The only infix handler in the table. -/
inductive InfixKind where
  | binary
deriving DecidableEq, Repr

/-- `ParseRule`; `pfx`/`ifx` stand for the `prefix`/`infix` fields. -/
structure ParseRule where
  pfx : Option PrefixKind
  ifx : Option InfixKind
  precedence : Nat
deriving DecidableEq, Repr

/-- `TokenType::get_rule` (`compiler/token.rs`): everything not listed gets
`ParseRule::default()` — no handlers, precedence `None`. -/
def getRule : CTokenType → ParseRule
  | .LeftParen => ⟨some .grouping, none, precNone⟩
  | .Minus => ⟨some .unary, some .binary, precTerm⟩
  | .Plus => ⟨none, some .binary, precTerm⟩
  | .Slash => ⟨none, some .binary, precFactor⟩
  | .Star => ⟨none, some .binary, precFactor⟩
  | .Number => ⟨some .number, none, precNone⟩
  | .False => ⟨some .literal, none, precNone⟩
  | .True => ⟨some .literal, none, precNone⟩
  | .Null => ⟨some .literal, none, precNone⟩
  | .Bang => ⟨some .unary, none, precNone⟩
  | _ => ⟨none, none, precNone⟩

/-- `Annotation` as `Compiler::create_annotation` builds it: the fixed
"Expected expression" message, the offending token, the source line's text,
and the name "Unknown".  (The `diagnostic` module's own definition is not
among the provided sources; the fields are those of the four arguments
passed at the only construction site.) -/
structure Annot where
  message : String
  token : CToken
  sourceLine : List Char
  name : String
deriving DecidableEq, Repr

/-- The `PetrelError` the compiler returns as a value. -/
inductive CompErr where
  | syntaxError (a : Annot)
deriving DecidableEq, Repr

/-- The `panic!`/`expect` terminations of the compiler, each naming its
site. -/
inductive CompPanic where
  | exprPanic (e : CompErr)   -- `expression`'s `panic!("{}", e)`
  | expectedEOF (e : CompErr) -- `compile`'s `.expect("Expected end of expression")`
  | noPrevious                -- `previous`'s `.expect("Should always be a previous token")`
  | currentOOB                -- `current`'s `.expect("Current token out of range.")`
  | invalidLine               -- `create_annotation`'s `.expect("Invalid line")`
  | badNumber                 -- `number`'s two `.expect`s (slice and parse)
  | badUnary                  -- `unary`'s `panic!("Unsupported unary token.")`
  | badLiteral                -- `literal`'s `panic!("Innapropriate use of literal fn")`
  | badBinary                 -- `binary`'s `panic!("Unsupported binary operation")`
deriving DecidableEq, Repr

/-- The compiler's mutable state: the source (already passed through
`Compiler::new`'s `lines().collect()` — see `linesConcat`), the token list,
the index, the VM being written, and the panic-mode flag.  The `errors`
vector is omitted: no code path shown ever pushes to it. -/
structure CState where
  source : List Char
  tokens : List CToken
  index : Nat
  vm : VM
  panicMode : Bool
deriving DecidableEq, Repr

/-- Result of a compiler operation: success with a value and the updated
state, a returned `Err` (propagated by `?`), a panic, or the embedding's
fuel marker. -/
inductive CRes (α : Type) where
  | ok (a : α) (s : CState)
  | failed (e : CompErr) (s : CState)
  | panicked (p : CompPanic)
  | fuelOut
deriving Repr

/-- Rust `str::lines`: split at `\n`, dropping one trailing `\r` per line;
a trailing newline yields no extra empty line, and the empty string has no
lines. -/
def splitLinesGo (cur : List Char) : List Char → List (List Char)
  | [] => [cur.reverse]  -- last line (the accumulator is reversed)
  | c :: rest =>
    if c = '\n' then
      (match cur with
       | '\r' :: cur2 => cur2.reverse  -- \r\n line ending
       | _ => cur.reverse) ::
        (match rest with
         | [] => []
         | r :: rs => splitLinesGo [] (r :: rs))
    else splitLinesGo (c :: cur) rest

def splitLines (s : List Char) : List (List Char) :=
  match s with
  | [] => []
  | c :: rest => splitLinesGo [] (c :: rest)

/-- `Compiler::new`'s `source.lines().map(to_string).collect::<String>()`:
the lines concatenated with the newlines (and any `\r`) dropped. -/
def linesConcat (s : List Char) : List Char := (splitLines s).flatten

/-- `Compiler::previous`: `tokens.get(self.index - 1)`, a panic when there
is no previous token (at index 0 the `usize` underflow lands outside the
vector in release mode, and panics outright in debug mode). -/
def CState.previous (s : CState) : Option CToken :=
  if s.index = 0 then none else s.tokens[s.index - 1]?

/-- `Compiler::current`: `tokens.get(self.index)`. -/
def CState.current (s : CState) : Option CToken :=
  s.tokens[s.index]?

/-- `Compiler::advance`. -/
def CState.advance (s : CState) : CState := { s with index := s.index + 1 }

/-- `Compiler::create_annotation`: the "Expected expression" message, the
token, `self.source.lines().nth(token.line - 1).expect("Invalid line")`,
and "Unknown".  `token.line` is 1-based; line 0 underflows to an absent
line. -/
def createAnnotation (s : CState) (tk : CToken) : Option Annot :=
  if tk.line = 0 then none
  else
    match (splitLines s.source)[tk.line - 1]? with
    | none => none
    | some ln => some ⟨"Expected expression", tk, ln, "Unknown"⟩

/-- `Compiler::consume`: compare the current token's type, advance on a
match, otherwise `report_error` (set panic mode) with a syntax-error
annotation. -/
def consume (tt : CTokenType) (s : CState) : CRes Unit :=
  match s.current with
  | none => .panicked .currentOOB
  | some cur =>
    if tt = cur.tt then .ok () s.advance
    else
      match createAnnotation s cur with
      | none => .panicked .invalidLine
      | some a => .failed (.syntaxError a) { s with panicMode := true }

/-- `VM::write_operation` through `Compiler::add_instruction`: stamp the
**current** token's line on the emitted byte. -/
def addInstruction (byte : Nat) (s : CState) : CRes Unit :=
  match s.current with
  | none => .panicked .currentOOB
  | some cur =>
    .ok () { s with vm := { s.vm with
      instructions := s.vm.instructions ++ [⟨byte, cur.line⟩] } }

/-- Digit-string value. -/
def digitsVal (cs : List Char) : Nat :=
  cs.foldl (fun acc c => 10 * acc + (c.toNat - '0'.toNat)) 0

/-- `value.parse::<f64>()` on the numeral shapes the scanner produces
(digits, optionally `.` and further digits — a trailing `.` parses), as an
exact rational. -/
def parseNumeral (cs : List Char) : Option ℚ :=
  let intPart := cs.takeWhile Char.isDigit
  let rest := cs.dropWhile Char.isDigit
  if intPart = [] then none
  else
    match rest with
    | [] => some (digitsVal intPart : ℚ)
    | c :: frac =>
      if c = '.' ∧ frac.all Char.isDigit then
        some ((digitsVal intPart : ℚ) + (digitsVal frac : ℚ) / (10 : ℚ) ^ frac.length)
      else none

/-- `Compiler::number`: re-slice the numeral from the source
(`self.source.get(start..start+length)`), parse it, and `add_constant` —
push into the pool, then emit `OpConstant` and the raw index byte that
`write_constant` returned, both stamped with the current token's line. -/
def numberFn (s : CState) : CRes Unit :=
  match s.previous with
  | none => .panicked .noPrevious
  | some prev =>
    if prev.start + prev.length ≤ s.source.length then
      match parseNumeral ((s.source.drop prev.start).take prev.length) with
      | none => .panicked .badNumber
      | some q =>
        match s.current with
        | none => .panicked .currentOOB
        | some cur =>
          let rf := (s.vm.constants.length + 1 - 1) % 256
          .ok () { s with vm := { s.vm with
            constants := s.vm.constants ++ [.number q],
            instructions := s.vm.instructions ++ [⟨1, cur.line⟩, ⟨rf, cur.line⟩] } }
    else .panicked .badNumber

/-- `Compiler::literal`: emit the single opcode for `False`/`True`/`Null`,
panic on anything else. -/
def literalFn (s : CState) : CRes Unit :=
  match s.previous with
  | none => .panicked .noPrevious
  | some prev =>
    match prev.tt with
    | .False => addInstruction 9 s
    | .True => addInstruction 8 s
    | .Null => addInstruction 7 s
    | _ => .panicked .badLiteral

end Petrel

namespace Petrel

/-! `Compiler::parse_precidence` and its trailing `while` loop, mutually
recursive on the step budget.  `parsePrec`: advance, dispatch the previous
token's prefix rule (its handlers inlined: `number`, `grouping`, `unary`,
`literal`), report an "Expected expression" syntax error when there is
none; then hand over to the loop.  `parseLoop`: while the current token's
infix precedence is at least `minp`, advance and run its infix rule
(`binary`, inlined: compile the right operand at one level higher, then
emit the operator's opcode); a token at or above `minp` without an infix
rule is skipped by the `if let`.  `Err` results propagate (`?`), but
`expression()` — inlined at its two prefix call sites, `grouping` and
`unary` — turns them into a `panic!`. -/

/-- `VM::new`. -/
def VM.new : VM := ⟨[], [], [], 0⟩

mutual

def parsePrec (fuel : Nat) (minp : Nat) (s0 : CState) : CRes Unit :=
  match fuel with
  | 0 => .fuelOut
  | fuel + 1 =>
    match prefixStep fuel s0 with
    | .ok _ s1 => parseLoop fuel minp s1
    | .failed e s1 => .failed e s1
    | .panicked p => .panicked p
    | .fuelOut => .fuelOut

def prefixStep (fuel : Nat) (s0 : CState) : CRes Unit :=
  match fuel with
  | 0 => .fuelOut
  | fuel + 1 =>
    let s := s0.advance
    match s.previous with
    | none => .panicked .noPrevious
    | some tk =>
      match (getRule tk.tt).pfx with
      | none =>
        -- report_error(SyntaxError(create_annotation(previous)))?
        (match createAnnotation s tk with
         | none => .panicked .invalidLine
         | some a => .failed (.syntaxError a) { s with panicMode := true })
      | some .number => numberFn s
      | some .literal => literalFn s
      | some .grouping =>
        -- expression(); consume(RightParen)
        (match parsePrec fuel precAssignment s with
         | .failed e _ => .panicked (.exprPanic e)
         | .panicked p => .panicked p
         | .fuelOut => .fuelOut
         | .ok _ s2 => consume .RightParen s2)
      | some .unary =>
        -- tt := previous; expression(); emit Negate/Not
        (match parsePrec fuel precAssignment s with
         | .failed e _ => .panicked (.exprPanic e)
         | .panicked p => .panicked p
         | .fuelOut => .fuelOut
         | .ok _ s2 =>
           match tk.tt with
           | .Minus => addInstruction 2 s2
           | .Bang => addInstruction 10 s2
           | _ => .panicked .badUnary)

def parseLoop (fuel : Nat) (minp : Nat) (s : CState) : CRes Unit :=
  match fuel with
  | 0 => .fuelOut
  | fuel + 1 =>
    match s.current with
    | none => .panicked .currentOOB
    | some cur =>
      if minp ≤ (getRule cur.tt).precedence then
        let s1 := s.advance
        match s1.previous with
        | none => .panicked .noPrevious
        | some tk =>
          match (getRule tk.tt).ifx with
          | none => parseLoop fuel minp s1
          | some .binary =>
            match parsePrec fuel (precFromNat ((getRule tk.tt).precedence + 1)) s1 with
            | .failed e s2 => .failed e s2
            | .panicked p => .panicked p
            | .fuelOut => .fuelOut
            | .ok _ s2 =>
              match tk.tt with
              | .Plus =>
                match addInstruction 3 s2 with
                | .ok _ s3 => parseLoop fuel minp s3
                | .failed e s3 => .failed e s3
                | .panicked p => .panicked p
                | .fuelOut => .fuelOut
              | .Minus =>
                match addInstruction 4 s2 with
                | .ok _ s3 => parseLoop fuel minp s3
                | .failed e s3 => .failed e s3
                | .panicked p => .panicked p
                | .fuelOut => .fuelOut
              | .Star =>
                match addInstruction 5 s2 with
                | .ok _ s3 => parseLoop fuel minp s3
                | .failed e s3 => .failed e s3
                | .panicked p => .panicked p
                | .fuelOut => .fuelOut
              | .Slash =>
                match addInstruction 6 s2 with
                | .ok _ s3 => parseLoop fuel minp s3
                | .failed e s3 => .failed e s3
                | .panicked p => .panicked p
                | .fuelOut => .fuelOut
              | _ => .panicked .badBinary
      else .ok () s

end

/-- How `Compiler::compile` ends: the populated VM handed back, a panic, or
the embedding's fuel marker. -/
inductive CompileOut where
  | ok (vm : VM)
  | panicked (p : CompPanic)
  | fuelOut
deriving Repr

/-- `Compiler::new` followed by `Compiler::compile`: build the state (note
the `lines().collect()` of the source), run `expression()` (which panics on
a parse error), `consume(EOF).expect(...)`, step the index back, and append
the terminal `OpReturn`. -/
def compileTokens (fuel : Nat) (sourceRaw : List Char) (tokens : List CToken) :
    CompileOut :=
  let s0 : CState := ⟨linesConcat sourceRaw, tokens, 0, VM.new, false⟩
  match parsePrec fuel precAssignment s0 with
  | .fuelOut => .fuelOut
  | .panicked p => .panicked p
  | .failed e _ => .panicked (.exprPanic e)
  | .ok _ s1 =>
    match consume .EOF s1 with
    | .fuelOut => .fuelOut
    | .panicked p => .panicked p
    | .failed e _ => .panicked (.expectedEOF e)
    | .ok _ s2 =>
      let s3 := { s2 with index := s2.index - 1 }
      match addInstruction 0 s3 with
      | .ok _ s4 => .ok s4.vm
      | .failed _ _ => .fuelOut  -- addInstruction never fails
      | .panicked p => .panicked p
      | .fuelOut => .fuelOut

end Petrel

namespace Petrel

/-! ## Theorems about malformed input (claim C2) -/

/-- C2, amended.  On malformed input whose first token has no prefix parse
rule (and whose line exists in the source, so that the annotation can be
built), `compile` does construct the structured syntax error carrying an
Annotation — but `expression()` converts it into a `panic!`; nothing is
returned to the caller, whose only non-panicking result is a `&mut VM`.
The repository's own `syntax_error` test is `#[should_panic]`. -/
theorem C2_amended (sourceRaw : List Char) (tk : CToken) (rest : List CToken)
    (fuel : Nat) (ln : List Char)
    (hfuel : 2 ≤ fuel)
    (hpfx : (getRule tk.tt).pfx = none)
    (hline : tk.line ≠ 0)
    (hln : (splitLines (linesConcat sourceRaw))[tk.line - 1]? = some ln) :
    compileTokens fuel sourceRaw (tk :: rest) =
      .panicked (.exprPanic (.syntaxError ⟨"Expected expression", tk, ln, "Unknown"⟩)) := by
  obtain ⟨f, rfl⟩ : ∃ f, fuel = f + 2 := ⟨fuel - 2, by omega⟩
  simp [compileTokens, parsePrec, prefixStep, CState.advance, CState.previous,
    createAnnotation, hpfx, hline, hln]

/-- C2, counterexample.  Compiling `)` builds the structured syntax error,
then terminates in the `panic!` of `expression` — not by returning the
error (or anything else) to the caller. -/
theorem C2_counterexample :
    compileTokens 10 (")".toList) [⟨.RightParen, 1, 0, 1⟩, ⟨.EOF, 1, 1, 0⟩] =
      .panicked (.exprPanic (.syntaxError
        ⟨"Expected expression", ⟨.RightParen, 1, 0, 1⟩, [')'], "Unknown"⟩)) ∧
    ∀ vm : VM, compileTokens 10 (")".toList) [⟨.RightParen, 1, 0, 1⟩, ⟨.EOF, 1, 1, 0⟩] ≠
      .ok vm := by
  have h0 : compileTokens 10 (")".toList) [⟨.RightParen, 1, 0, 1⟩, ⟨.EOF, 1, 1, 0⟩] =
      .panicked (.exprPanic (.syntaxError
        ⟨"Expected expression", ⟨.RightParen, 1, 0, 1⟩, [')'], "Unknown"⟩)) := by
    rfl
  refine ⟨h0, fun vm h => ?_⟩
  rw [h0] at h
  exact CompileOut.noConfusion h

/-- Witness for C2_amended at the `)` input. -/
theorem C2_witness :
    compileTokens 10 (")".toList) [⟨.RightParen, 1, 0, 1⟩, ⟨.EOF, 1, 1, 0⟩] =
      .panicked (.exprPanic (.syntaxError
        ⟨"Expected expression", ⟨.RightParen, 1, 0, 1⟩, [')'], "Unknown"⟩)) :=
  C2_amended (")".toList) ⟨.RightParen, 1, 0, 1⟩ [⟨.EOF, 1, 1, 0⟩] 10 [')']
    (by decide) rfl (by decide) rfl

end Petrel

namespace Petrel

/-! ## Claim C4: arithmetic expressions

The reference grammar of standard precedence-respecting arithmetic —
sum-level chains of product-level chains of atoms, left-associative by
construction — and its evaluation.  `AExp.chain h t` is
`h op₁ m₁ op₂ m₂ …` with `true` for `+` and `false` for `-`;
`MExp.chain` likewise with `true` for `*` and `false` for `/`; atoms are
numeric literals and parenthesised sums.  Unary `-` is deliberately
absent: the compiler parses its operand at the lowest precedence (see
`C4_counterexample`). -/

mutual
inductive AExp where
  | chain (head : MExp) (tail : List (Bool × MExp))
deriving Repr
inductive MExp where
  | chain (head : FExp) (tail : List (Bool × FExp))
deriving Repr
inductive FExp where
  | num (q : ℚ)
  | grp (e : AExp)
deriving Repr
end

/-! Standard evaluation: fold the chains left to right. -/

mutual
def evalA : AExp → ℚ
  | .chain h t => evalATail (evalM h) t
def evalATail : ℚ → List (Bool × MExp) → ℚ
  | v, [] => v
  | v, (op, m) :: t => evalATail (if op then v + evalM m else v - evalM m) t
def evalM : MExp → ℚ
  | .chain h t => evalMTail (evalF h) t
def evalMTail : ℚ → List (Bool × FExp) → ℚ
  | v, [] => v
  | v, (op, f) :: t => evalMTail (if op then v * evalF f else v / evalF f) t
def evalF : FExp → ℚ
  | .num q => q
  | .grp e => evalA e
end

/-! Which token lists spell a given expression: a consume-style matcher
returning the unconsumed suffix.  A `Number` token must slice (out of the
compiler's source field) to a numeral whose value is the atom's rational. -/

mutual
def reprA (src : List Char) : AExp → List CToken → Option (List CToken)
  | .chain h t, tks =>
    match reprM src h tks with
    | none => none
    | some rest => reprATail src t rest
def reprATail (src : List Char) : List (Bool × MExp) → List CToken → Option (List CToken)
  | [], tks => some tks
  | (op, m) :: t, tks =>
    match tks with
    | [] => none
    | tk :: tks2 =>
      if tk.tt = (if op then CTokenType.Plus else CTokenType.Minus) then
        match reprM src m tks2 with
        | none => none
        | some rest => reprATail src t rest
      else none
def reprM (src : List Char) : MExp → List CToken → Option (List CToken)
  | .chain h t, tks =>
    match reprF src h tks with
    | none => none
    | some rest => reprMTail src t rest
def reprMTail (src : List Char) : List (Bool × FExp) → List CToken → Option (List CToken)
  | [], tks => some tks
  | (op, f) :: t, tks =>
    match tks with
    | [] => none
    | tk :: tks2 =>
      if tk.tt = (if op then CTokenType.Star else CTokenType.Slash) then
        match reprF src f tks2 with
        | none => none
        | some rest => reprMTail src t rest
      else none
def reprF (src : List Char) : FExp → List CToken → Option (List CToken)
  | .num q, tks =>
    match tks with
    | [] => none
    | tk :: tks2 =>
      if tk.tt = .Number ∧ tk.start + tk.length ≤ src.length ∧
         parseNumeral ((src.drop tk.start).take tk.length) = some q then some tks2
      else none
  | .grp e, tks =>
    match tks with
    | [] => none
    | tk :: tks2 =>
      if tk.tt = .LeftParen then
        match reprA src e tks2 with
        | some (tk2 :: rest) => if tk2.tt = .RightParen then some rest else none
        | _ => none
      else none
end

/-! The bytecode and constants the compiler emits for an expression, given
the size `k` of the constant pool on entry (`write_constant` returns the
new index as a byte, `mod 256`).  All lines are 1: the claim is settled for
single-line sources (multi-line sources are broken upstream by
`Compiler::new`'s `lines().collect()` offset shift). -/

mutual
def emitA (k : Nat) : AExp → List Operation × List Value
  | .chain h t =>
    let p1 := emitM k h
    let p2 := emitATail (k + p1.2.length) t
    (p1.1 ++ p2.1, p1.2 ++ p2.2)
def emitATail (k : Nat) : List (Bool × MExp) → List Operation × List Value
  | [] => ([], [])
  | (op, m) :: t =>
    let p1 := emitM k m
    let p2 := emitATail (k + p1.2.length) t
    (p1.1 ++ [⟨if op then 3 else 4, 1⟩] ++ p2.1, p1.2 ++ p2.2)
def emitM (k : Nat) : MExp → List Operation × List Value
  | .chain h t =>
    let p1 := emitF k h
    let p2 := emitMTail (k + p1.2.length) t
    (p1.1 ++ p2.1, p1.2 ++ p2.2)
def emitMTail (k : Nat) : List (Bool × FExp) → List Operation × List Value
  | [] => ([], [])
  | (op, f) :: t =>
    let p1 := emitF k f
    let p2 := emitMTail (k + p1.2.length) t
    (p1.1 ++ [⟨if op then 5 else 6, 1⟩] ++ p2.1, p1.2 ++ p2.2)
def emitF (k : Nat) : FExp → List Operation × List Value
  | .num q => ([⟨1, 1⟩, ⟨k % 256, 1⟩], [.number q])
  | .grp e => emitA k e
end

/-! Fuel bounds for the parser lemmas (sums, so `omega` handles them). -/

mutual
def cA : AExp → Nat
  | .chain (.chain hf mt) at2 => 2 + cPF hf + cMT mt + cAT at2
def cAT : List (Bool × MExp) → Nat
  | [] => 0
  | (_, m) :: t => 1 + cM7 m + cAT t
def cM7 : MExp → Nat
  | .chain h t => 2 + cPF h + cMT t
def cMT : List (Bool × FExp) → Nat
  | [] => 0
  | (_, f) :: t => 1 + cF8 f + cMT t
def cF8 : FExp → Nat
  | f => 2 + cPF f
def cPF : FExp → Nat
  | .num _ => 1
  | .grp e => 1 + cA e
end

/-! VM iteration counts of the emitted code. -/

mutual
def itA : AExp → Nat
  | .chain h t => itM h + itAT t
def itAT : List (Bool × MExp) → Nat
  | [] => 0
  | (_, m) :: t => itM m + 1 + itAT t
def itM : MExp → Nat
  | .chain h t => itF h + itMT t
def itMT : List (Bool × FExp) → Nat
  | [] => 0
  | (_, f) :: t => itF f + 1 + itMT t
def itF : FExp → Nat
  | .num _ => 1
  | .grp e => itA e
end

/-! Literal counts: how many constants the expression pushes. -/

mutual
def litA : AExp → Nat
  | .chain h t => litM h + litAT t
def litAT : List (Bool × MExp) → Nat
  | [] => 0
  | (_, m) :: t => litM m + litAT t
def litM : MExp → Nat
  | .chain h t => litF h + litMT t
def litMT : List (Bool × FExp) → Nat
  | [] => 0
  | (_, f) :: t => litF f + litMT t
def litF : FExp → Nat
  | .num _ => 1
  | .grp e => litA e
end

end Petrel

namespace Petrel

theorem drop_cons {α : Type} {l : List α} {i : Nat} {x : α} {xs : List α}
    (h : l.drop i = x :: xs) :
    l[i]? = some x ∧ l.drop (i + 1) = xs ∧ i < l.length := by
  have h0 : l[i]? = some x := by
    have := List.getElem?_drop l i 0
    rw [h] at this
    simpa using this.symm
  have h1 : i < l.length := (List.getElem?_eq_some.mp h0).1
  refine ⟨h0, ?_, h1⟩
  have h2 : l.drop (i + 1) = (l.drop i).drop 1 := by
    rw [List.drop_drop]
  rw [h2, h]
  rfl

theorem mem_of_getElem? {α : Type} {l : List α} {i : Nat} {x : α}
    (h : l[i]? = some x) : x ∈ l := by
  obtain ⟨hlt, he⟩ := List.getElem?_eq_some.mp h
  exact he ▸ List.getElem_mem hlt

/-- The state after consuming tokens down to suffix length `n` and
appending the emitted code. -/
def emitted (s : CState) (n : Nat) (p : List Operation × List Value) : CState :=
  { s with
      index := n
      vm := { s.vm with
                instructions := s.vm.instructions ++ p.1
                constants := s.vm.constants ++ p.2 } }

/-! What the repr matchers return is a suffix of what they were given. -/

mutual
theorem reprA_suffix (src : List Char) (e : AExp) (tks rest : List CToken)
    (h : reprA src e tks = some rest) : rest.IsSuffix tks := by
  match e with
  | .chain hd t =>
    rw [reprA] at h
    cases hm : reprM src hd tks with
    | none => rw [hm] at h; exact Option.noConfusion h
    | some r2 =>
      rw [hm] at h
      exact (reprATail_suffix src t r2 rest h).trans (reprM_suffix src hd tks r2 hm)
theorem reprATail_suffix (src : List Char) (t : List (Bool × MExp))
    (tks rest : List CToken)
    (h : reprATail src t tks = some rest) : rest.IsSuffix tks := by
  match t with
  | [] =>
    rw [reprATail] at h
    injection h with h
    rw [h]
  | (op, m) :: t2 =>
    match tks with
    | [] => rw [reprATail] at h; exact Option.noConfusion h
    | tk :: tks2 =>
      rw [reprATail] at h
      split_ifs at h
      all_goals
        cases hm : reprM src m tks2 with
        | none => rw [hm] at h; exact Option.noConfusion h
        | some r2 =>
          rw [hm] at h
          refine ((reprATail_suffix src t2 r2 rest h).trans
            (reprM_suffix src m tks2 r2 hm)).trans (List.suffix_cons tk tks2)
theorem reprM_suffix (src : List Char) (m : MExp) (tks rest : List CToken)
    (h : reprM src m tks = some rest) : rest.IsSuffix tks := by
  match m with
  | .chain hd t =>
    rw [reprM] at h
    cases hm : reprF src hd tks with
    | none => rw [hm] at h; exact Option.noConfusion h
    | some r2 =>
      rw [hm] at h
      exact (reprMTail_suffix src t r2 rest h).trans (reprF_suffix src hd tks r2 hm)
theorem reprMTail_suffix (src : List Char) (t : List (Bool × FExp))
    (tks rest : List CToken)
    (h : reprMTail src t tks = some rest) : rest.IsSuffix tks := by
  match t with
  | [] =>
    rw [reprMTail] at h
    injection h with h
    rw [h]
  | (op, f) :: t2 =>
    match tks with
    | [] => rw [reprMTail] at h; exact Option.noConfusion h
    | tk :: tks2 =>
      rw [reprMTail] at h
      split_ifs at h
      all_goals
        cases hm : reprF src f tks2 with
        | none => rw [hm] at h; exact Option.noConfusion h
        | some r2 =>
          rw [hm] at h
          refine ((reprMTail_suffix src t2 r2 rest h).trans
            (reprF_suffix src f tks2 r2 hm)).trans (List.suffix_cons tk tks2)
theorem reprF_suffix (src : List Char) (f : FExp) (tks rest : List CToken)
    (h : reprF src f tks = some rest) : rest.IsSuffix tks := by
  match f with
  | .num q =>
    match tks with
    | [] => rw [reprF] at h; exact Option.noConfusion h
    | tk :: tks2 =>
      rw [reprF] at h
      split_ifs at h
      injection h with h
      rw [← h]
      exact List.suffix_cons tk tks2
  | .grp e =>
    match tks with
    | [] => rw [reprF] at h; exact Option.noConfusion h
    | tk :: tks2 =>
      rw [reprF] at h
      split_ifs at h
      cases ha : reprA src e tks2 with
      | none => rw [ha] at h; exact Option.noConfusion h
      | some r2 =>
        rw [ha] at h
        match r2, ha, h with
        | [], ha, h => exact Option.noConfusion h
        | tk2 :: rest2, ha, h =>
          simp only [] at h
          split_ifs at h
          injection h with h
          rw [← h]
          refine ((List.suffix_cons tk2 rest2).trans
            (reprA_suffix src e tks2 (tk2 :: rest2) ha)).trans ?_
          exact List.suffix_cons tk tks2
end

end Petrel

namespace Petrel

theorem suffix_drop_eq {α : Type} {l rest : List α} (h : rest.IsSuffix l) :
    l.drop (l.length - rest.length) = rest := by
  obtain ⟨t, rfl⟩ := h
  have hl : (t ++ rest).length - rest.length = t.length := by
    simp [List.length_append]
  rw [hl]
  exact List.drop_left t rest

theorem drop_suffix_drop {α : Type} {l r : List α} {i : Nat}
    (h : r.IsSuffix (l.drop i)) : l.drop (l.length - r.length) = r :=
  suffix_drop_eq (h.trans (List.drop_suffix i l))

theorem cMT_ge_len (t : List (Bool × FExp)) : t.length ≤ cMT t := by
  induction t with
  | nil => simp [cMT]
  | cons p t2 ih =>
    obtain ⟨op, f⟩ := p
    rw [cMT]
    simp only [List.length_cons]
    omega

theorem cAT_ge_len (t : List (Bool × MExp)) : t.length ≤ cAT t := by
  induction t with
  | nil => simp [cAT]
  | cons p t2 ih =>
    obtain ⟨op, m⟩ := p
    rw [cAT]
    simp only [List.length_cons]
    omega

theorem emitted_emitted (s : CState) (a b : Nat)
    (pa pb : List Operation × List Value) :
    emitted (emitted s a pa) b pb = emitted s b (pa.1 ++ pb.1, pa.2 ++ pb.2) := by
  simp [emitted, List.append_assoc]

theorem emitted_self (s : CState) (n : Nat) (h : n = s.index) :
    emitted s n ([], []) = s := by
  subst h
  simp [emitted]

theorem emitted_advance (s : CState) (n : Nat)
    (p : List Operation × List Value) :
    emitted s.advance n p = emitted s n p := rfl

theorem reprMTail_head (src : List Char) (op : Bool) (f : FExp)
    (t2 : List (Bool × FExp)) (tks K : List CToken)
    (h : reprMTail src ((op, f) :: t2) tks = some K) :
    ∃ h2 t2', tks = h2 :: t2' ∧ (getRule h2.tt).precedence = 7 := by
  match tks with
  | [] => rw [reprMTail] at h; exact Option.noConfusion h
  | tk :: tks2 =>
    rw [reprMTail] at h
    split_ifs at h
    all_goals rename_i hcc
    all_goals exact ⟨tk, tks2, rfl, by rw [hcc]; rfl⟩

theorem reprATail_head (src : List Char) (op : Bool) (m : MExp)
    (t2 : List (Bool × MExp)) (tks K : List CToken)
    (h : reprATail src ((op, m) :: t2) tks = some K) :
    ∃ h2 t2', tks = h2 :: t2' ∧ (getRule h2.tt).precedence = 6 := by
  match tks with
  | [] => rw [reprATail] at h; exact Option.noConfusion h
  | tk :: tks2 =>
    rw [reprATail] at h
    split_ifs at h
    all_goals rename_i hcc
    all_goals exact ⟨tk, tks2, rfl, by rw [hcc]; rfl⟩

theorem lemLoopExit (fuel minp : Nat) (s : CState) (cur : CToken)
    (hf : 1 ≤ fuel)
    (hcur : s.tokens[s.index]? = some cur)
    (hlt : (getRule cur.tt).precedence < minp) :
    parseLoop fuel minp s = .ok () s := by
  obtain ⟨g, rfl⟩ : ∃ g, fuel = g + 1 := ⟨fuel - 1, by omega⟩
  rw [parseLoop]
  have hc : s.current = some cur := hcur
  rw [hc]
  simp only []
  rw [if_neg (by omega)]

end Petrel

namespace Petrel

theorem emitted_push_op (s : CState) (n : Nat)
    (p : List Operation × List Value) (o : Operation) :
    ({ emitted s n p with vm := { (emitted s n p).vm with
        instructions := (emitted s n p).vm.instructions ++ [o] } } : CState) =
      emitted s n (p.1 ++ [o], p.2) := by
  simp [emitted, List.append_assoc]

/-- One iteration of `parse_precidence`'s trailing loop at a binary
operator token, with the recursive right-operand compilation supplied as a
hypothesis. -/
theorem loopIterBinary (g minp b : Nat) (s s2 : CState) (optk cur2 : CToken)
    (s3 : CState)
    (hget : s.tokens[s.index]? = some optk)
    (hminp : minp ≤ (getRule optk.tt).precedence)
    (hinner : parsePrec g (precFromNat ((getRule optk.tt).precedence + 1))
      s.advance = .ok () s2)
    (hcur2 : s2.current = some cur2)
    (hline : cur2.line = 1)
    (hbyte : optk.tt = .Plus ∧ b = 3 ∨ optk.tt = .Minus ∧ b = 4 ∨
             optk.tt = .Star ∧ b = 5 ∨ optk.tt = .Slash ∧ b = 6)
    (hs3 : ({ s2 with vm := { s2.vm with
        instructions := s2.vm.instructions ++ [⟨b, 1⟩] } } : CState) = s3) :
    parseLoop (g + 1) minp s = parseLoop g minp s3 := by
  have hprev : (s.advance).previous = some optk := by
    simp [CState.advance, CState.previous, hget]
  rcases hbyte with ⟨h1, h2⟩ | ⟨h1, h2⟩ | ⟨h1, h2⟩ | ⟨h1, h2⟩ <;>
  subst h2 <;>
  (rw [parseLoop]
   rw [show s.current = some optk from hget]
   simp only []
   rw [if_pos hminp]
   rw [hprev]
   simp only []
   rw [show (getRule optk.tt).ifx = some InfixKind.binary from by rw [h1]; rfl]
   simp only []
   rw [hinner]
   simp only []
   rw [h1]
   simp only []
   rw [addInstruction]
   rw [hcur2]
   simp only []
   rw [hline]
   rw [hs3])

end Petrel
namespace Petrel

theorem loopExitOk (fuel minp : Nat) (s s' : CState) (cur : CToken)
    (hf : 1 ≤ fuel)
    (hcur : s.tokens[s.index]? = some cur)
    (hlt : (getRule cur.tt).precedence < minp)
    (heq : s = s') :
    parseLoop fuel minp s = .ok () s' := by
  rw [← heq]
  exact lemLoopExit fuel minp s cur hf hcur hlt

mutual

theorem lemPrefixF (f : FExp) (fuel : Nat) (s : CState) (rtk : CToken)
    (rrest : List CToken)
    (hfu : cPF f ≤ fuel)
    (hlines : ∀ t ∈ s.tokens, t.line = 1)
    (hrepr : reprF s.source f (s.tokens.drop s.index) = some (rtk :: rrest)) :
    prefixStep fuel s =
      .ok () (emitted s (s.tokens.length - (rtk :: rrest).length)
        (emitF s.vm.constants.length f)) := by
  match f with
  | .num q =>
    obtain ⟨g, rfl⟩ : ∃ g, fuel = g + 1 := ⟨fuel - 1, by simp [cPF] at hfu; omega⟩
    cases hd : s.tokens.drop s.index with
    | nil => rw [hd] at hrepr; simp [reprF] at hrepr
    | cons tk tks2 =>
      rw [hd] at hrepr
      rw [reprF] at hrepr
      split_ifs at hrepr with hcond
      obtain ⟨htt, hsl, hpn⟩ := hcond
      injection hrepr with hrepr
      subst hrepr
      obtain ⟨hget, hdrop2, hlt⟩ := drop_cons hd
      obtain ⟨hget2, hdrop3, hlt2⟩ := drop_cons hdrop2
      have hline2 : rtk.line = 1 := hlines rtk (mem_of_getElem? hget2)
      rw [prefixStep]
      have hprev : (s.advance).previous = some tk := by
        simp [CState.advance, CState.previous, hget]
      rw [hprev]
      simp only []
      rw [htt]
      simp only [getRule]
      rw [numberFn]
      rw [hprev]
      simp only []
      have hsl2 : tk.start + tk.length ≤ (s.advance).source.length := hsl
      rw [if_pos hsl2]
      have hpn2 : parseNumeral (List.take tk.length (List.drop tk.start (s.advance).source)) = some q := hpn
      rw [hpn2]
      have hcur : (s.advance).current = some rtk := by
        simp [CState.advance, CState.current, hget2]
      rw [hcur]
      have hl := congrArg List.length hdrop2
      simp only [List.length_drop, List.length_cons] at hl
      have hidx : s.tokens.length - (rtk :: rrest).length = s.index + 1 := by
        simp only [List.length_cons]
        omega
      simp [emitted, emitF, CState.advance, hline2, hidx]
      omega
  | .grp e =>
    rw [cPF] at hfu
    obtain ⟨g, rfl⟩ : ∃ g, fuel = g + 1 := ⟨fuel - 1, by omega⟩
    cases hd : s.tokens.drop s.index with
    | nil => rw [hd, reprF] at hrepr; exact Option.noConfusion hrepr
    | cons tk tks2 =>
      rw [hd, reprF] at hrepr
      split_ifs at hrepr with hlp
      cases ha : reprA s.source e tks2 with
      | none => rw [ha] at hrepr; exact Option.noConfusion hrepr
      | some r2 =>
        rw [ha] at hrepr
        match r2, ha, hrepr with
        | [], ha, hrepr => exact Option.noConfusion hrepr
        | tk2 :: rest2, ha, hrepr =>
          simp only [] at hrepr
          split_ifs at hrepr with hrp
          injection hrepr with hrepr
          subst hrepr
          obtain ⟨hget, hdrop2, hlt⟩ := drop_cons hd
          rw [prefixStep]
          have hprev : (s.advance).previous = some tk := by
            simp [CState.advance, CState.previous, hget]
          rw [hprev]
          simp only []
          rw [hlp]
          simp only [getRule]
          rw [show precAssignment = 1 from rfl]
          have hAm : parsePrec g 1 s.advance =
              .ok () (emitted s (s.tokens.length - (tk2 :: rtk :: rrest).length)
                (emitA s.vm.constants.length e)) := by
            exact lemA e g s.advance tk2 (rtk :: rrest) (by omega) hlines
              (by show reprA s.source e (s.tokens.drop (s.index + 1)) = some (tk2 :: rtk :: rrest)
                  rw [hdrop2]; exact ha)
              (by rw [hrp]; decide)
          rw [hAm]
          simp only []
          rw [consume]
          have hsfx : (tk2 :: rtk :: rrest).IsSuffix (s.tokens.drop (s.index + 1)) := by
            rw [hdrop2]
            exact reprA_suffix s.source e tks2 _ ha
          have hdropK := drop_suffix_drop hsfx
          obtain ⟨hget2, hdropK2, hlt2⟩ := drop_cons hdropK
          rw [show (emitted s (s.tokens.length - (tk2 :: rtk :: rrest).length)
              (emitA s.vm.constants.length e)).current = some tk2 from hget2]
          simp only []
          rw [if_pos hrp.symm]
          have hlen := congrArg List.length hdropK
          simp only [List.length_drop, List.length_cons] at hlen
          simp [emitted, CState.advance, emitF, List.length_cons]
          omega
termination_by fuel
decreasing_by all_goals omega

theorem lemF8 (f : FExp) (fuel : Nat) (s : CState) (rtk : CToken)
    (rrest : List CToken)
    (hfu : cF8 f ≤ fuel)
    (hlines : ∀ t ∈ s.tokens, t.line = 1)
    (hrepr : reprF s.source f (s.tokens.drop s.index) = some (rtk :: rrest))
    (hprec : (getRule rtk.tt).precedence < 8) :
    parsePrec fuel 8 s =
      .ok () (emitted s (s.tokens.length - (rtk :: rrest).length)
        (emitF s.vm.constants.length f)) := by
  rw [cF8] at hfu
  obtain ⟨g, rfl⟩ : ∃ g, fuel = g + 1 := ⟨fuel - 1, by omega⟩
  rw [parsePrec]
  rw [lemPrefixF f g s rtk rrest (by omega) hlines hrepr]
  simp only []
  have hdropK := drop_suffix_drop (reprF_suffix s.source f _ _ hrepr)
  obtain ⟨hget, hdrop2, hlt⟩ := drop_cons hdropK
  exact lemLoopExit g 8
    (emitted s (s.tokens.length - (rtk :: rrest).length)
      (emitF s.vm.constants.length f)) rtk (by omega) hget hprec
termination_by fuel
decreasing_by all_goals omega

theorem lemLoopMT (t : List (Bool × FExp)) (fuel minp : Nat) (s : CState)
    (rtk : CToken) (rrest : List CToken)
    (hfu : cMT t ≤ fuel)
    (hminp : minp ≤ 7)
    (hlines : ∀ tokn ∈ s.tokens, tokn.line = 1)
    (hrepr : reprMTail s.source t (s.tokens.drop s.index) = some (rtk :: rrest))
    (hprec : (getRule rtk.tt).precedence < 8) :
    parseLoop fuel minp s =
      parseLoop (fuel - t.length) minp
        (emitted s (s.tokens.length - (rtk :: rrest).length)
          (emitMTail s.vm.constants.length t)) := by
  match t with
  | [] =>
    rw [reprMTail] at hrepr
    injection hrepr with hrepr
    obtain ⟨hget, hdrop2, hlt⟩ := drop_cons hrepr
    have hlen := congrArg List.length hrepr
    simp only [List.length_drop, List.length_cons] at hlen
    rw [emitMTail]
    rw [emitted_self s _ (by simp only [List.length_cons]; omega)]
    simp
  | (op, f) :: t2 =>
    rw [cMT] at hfu
    obtain ⟨g, rfl⟩ : ∃ g, fuel = g + 1 := ⟨fuel - 1, by omega⟩
    cases hd : s.tokens.drop s.index with
    | nil => rw [hd, reprMTail] at hrepr; exact Option.noConfusion hrepr
    | cons optk tks2 =>
      rw [hd, reprMTail] at hrepr
      by_cases htt : optk.tt = (if op then CTokenType.Star else CTokenType.Slash)
      case neg => rw [if_neg htt] at hrepr; exact Option.noConfusion hrepr
      rw [if_pos htt] at hrepr
      cases hfm : reprF s.source f tks2 with
      | none => rw [hfm] at hrepr; exact Option.noConfusion hrepr
      | some r2 =>
        rw [hfm] at hrepr
        simp only [] at hrepr
        obtain ⟨h2, t2', hr2, hp2⟩ :
            ∃ h2 t2', r2 = h2 :: t2' ∧ (getRule h2.tt).precedence < 8 := by
          match t2, hrepr with
          | [], hrepr =>
            rw [reprMTail] at hrepr
            injection hrepr with hrepr
            exact ⟨rtk, rrest, hrepr, hprec⟩
          | (op2, f2) :: t3, hrepr =>
            obtain ⟨h2x, t2x, hex, hpx⟩ := reprMTail_head s.source op2 f2 t3 r2 _ hrepr
            exact ⟨h2x, t2x, hex, by omega⟩
        subst hr2
        obtain ⟨hget, hdrop2, hlt⟩ := drop_cons hd
        have hprec7 : (getRule optk.tt).precedence = 7 := by
          rw [htt]; cases op <;> rfl
        have hdropF : s.tokens.drop (s.tokens.length - (h2 :: t2').length) = h2 :: t2' := by
          apply drop_suffix_drop (i := s.index + 1)
          rw [hdrop2]
          exact reprF_suffix s.source f tks2 _ hfm
        obtain ⟨hget2, hdrop3, hlt2⟩ := drop_cons hdropF
        have hline2 : h2.line = 1 := hlines h2 (mem_of_getElem? hget2)
        have hinner : parsePrec g (precFromNat ((getRule optk.tt).precedence + 1))
            s.advance = .ok () (emitted s (s.tokens.length - (h2 :: t2').length)
              (emitF s.vm.constants.length f)) := by
          rw [hprec7]
          exact lemF8 f g s.advance h2 t2' (by omega) hlines
            (by show reprF s.source f (s.tokens.drop (s.index + 1)) = some (h2 :: t2')
                rw [hdrop2]; exact hfm)
            hp2
        have hbyte : optk.tt = CTokenType.Plus ∧ (if op then 5 else 6) = 3 ∨
            optk.tt = CTokenType.Minus ∧ (if op then 5 else 6) = 4 ∨
            optk.tt = CTokenType.Star ∧ (if op then 5 else 6) = 5 ∨
            optk.tt = CTokenType.Slash ∧ (if op then 5 else 6) = 6 := by
          cases op
          · exact Or.inr (Or.inr (Or.inr ⟨htt, rfl⟩))
          · exact Or.inr (Or.inr (Or.inl ⟨htt, rfl⟩))
        have hstep := loopIterBinary g minp (if op then 5 else 6) s
          (emitted s (s.tokens.length - (h2 :: t2').length)
            (emitF s.vm.constants.length f))
          optk h2
          (emitted s (s.tokens.length - (h2 :: t2').length)
            ((emitF s.vm.constants.length f).1 ++ [⟨if op then 5 else 6, 1⟩],
             (emitF s.vm.constants.length f).2))
          hget (by rw [hprec7]; omega) hinner hget2 hline2 hbyte
          (emitted_push_op s _ _ _)
        rw [hstep]
        have hIH := lemLoopMT t2 g minp
          (emitted s (s.tokens.length - (h2 :: t2').length)
            ((emitF s.vm.constants.length f).1 ++ [⟨if op then 5 else 6, 1⟩],
             (emitF s.vm.constants.length f).2))
          rtk rrest (by omega) hminp hlines
          (by show reprMTail s.source t2
                (s.tokens.drop (s.tokens.length - (h2 :: t2').length)) = some (rtk :: rrest)
              rw [hdropF]; exact hrepr)
          hprec
        rw [hIH]
        rw [show g + 1 - ((op, f) :: t2).length = g - t2.length from by
          simp only [List.length_cons]; omega]
        congr 1
        simp [emitMTail, emitted, List.append_assoc, List.length_append, Nat.add_assoc]
termination_by fuel
decreasing_by all_goals omega

theorem lemM7 (m : MExp) (fuel : Nat) (s : CState) (rtk : CToken)
    (rrest : List CToken)
    (hfu : cM7 m ≤ fuel)
    (hlines : ∀ tokn ∈ s.tokens, tokn.line = 1)
    (hrepr : reprM s.source m (s.tokens.drop s.index) = some (rtk :: rrest))
    (hprec : (getRule rtk.tt).precedence < 7) :
    parsePrec fuel 7 s =
      .ok () (emitted s (s.tokens.length - (rtk :: rrest).length)
        (emitM s.vm.constants.length m)) := by
  match m with
  | .chain hf mt =>
    rw [cM7] at hfu
    obtain ⟨g, rfl⟩ : ∃ g, fuel = g + 1 := ⟨fuel - 1, by omega⟩
    rw [reprM] at hrepr
    cases hf2 : reprF s.source hf (s.tokens.drop s.index) with
    | none => rw [hf2] at hrepr; exact Option.noConfusion hrepr
    | some r2 =>
      rw [hf2] at hrepr
      simp only [] at hrepr
      obtain ⟨h2, t2', hr2, hp2⟩ :
          ∃ h2 t2', r2 = h2 :: t2' ∧ (getRule h2.tt).precedence < 8 := by
        match mt, hrepr with
        | [], hrepr =>
          rw [reprMTail] at hrepr
          injection hrepr with hrepr
          exact ⟨rtk, rrest, hrepr, by omega⟩
        | (op2, f2) :: t3, hrepr =>
          obtain ⟨h2x, t2x, hex, hpx⟩ := reprMTail_head s.source op2 f2 t3 r2 _ hrepr
          exact ⟨h2x, t2x, hex, by omega⟩
      subst hr2
      rw [parsePrec]
      rw [lemPrefixF hf g s h2 t2' (by omega) hlines hf2]
      simp only []
      have hdropF : s.tokens.drop (s.tokens.length - (h2 :: t2').length) = h2 :: t2' :=
        drop_suffix_drop (reprF_suffix s.source hf _ _ hf2)
      have hMT := lemLoopMT mt g 7
        (emitted s (s.tokens.length - (h2 :: t2').length)
          (emitF s.vm.constants.length hf))
        rtk rrest (by omega) (by omega) hlines
        (by show reprMTail s.source mt
              (s.tokens.drop (s.tokens.length - (h2 :: t2').length)) = some (rtk :: rrest)
            rw [hdropF]; exact hrepr)
        (by omega)
      rw [hMT]
      have hdropK : s.tokens.drop (s.tokens.length - (rtk :: rrest).length) = rtk :: rrest := by
        apply drop_suffix_drop (i := s.tokens.length - (h2 :: t2').length)
        rw [hdropF]
        exact reprMTail_suffix s.source mt _ _ hrepr
      obtain ⟨hgetK, hdropK2, hltK⟩ := drop_cons hdropK
      refine loopExitOk _ _ _ _ rtk ?_ ?_ ?_ ?_
      · have := cMT_ge_len mt
        omega
      · exact hgetK
      · exact hprec
      · simp [emitM, emitted, List.append_assoc, List.length_append, Nat.add_assoc]
termination_by fuel
decreasing_by all_goals omega

theorem lemLoopAT (t : List (Bool × MExp)) (fuel : Nat) (s : CState)
    (rtk : CToken) (rrest : List CToken)
    (hfu : cAT t ≤ fuel)
    (hlines : ∀ tokn ∈ s.tokens, tokn.line = 1)
    (hrepr : reprATail s.source t (s.tokens.drop s.index) = some (rtk :: rrest))
    (hprec : (getRule rtk.tt).precedence < 7) :
    parseLoop fuel precAssignment s =
      parseLoop (fuel - t.length) precAssignment
        (emitted s (s.tokens.length - (rtk :: rrest).length)
          (emitATail s.vm.constants.length t)) := by
  match t with
  | [] =>
    rw [reprATail] at hrepr
    injection hrepr with hrepr
    obtain ⟨hget, hdrop2, hlt⟩ := drop_cons hrepr
    have hlen := congrArg List.length hrepr
    simp only [List.length_drop, List.length_cons] at hlen
    rw [emitATail]
    rw [emitted_self s _ (by simp only [List.length_cons]; omega)]
    simp
  | (op, m) :: t2 =>
    rw [cAT] at hfu
    obtain ⟨g, rfl⟩ : ∃ g, fuel = g + 1 := ⟨fuel - 1, by omega⟩
    cases hd : s.tokens.drop s.index with
    | nil => rw [hd, reprATail] at hrepr; exact Option.noConfusion hrepr
    | cons optk tks2 =>
      rw [hd, reprATail] at hrepr
      by_cases htt : optk.tt = (if op then CTokenType.Plus else CTokenType.Minus)
      case neg => rw [if_neg htt] at hrepr; exact Option.noConfusion hrepr
      rw [if_pos htt] at hrepr
      cases hfm : reprM s.source m tks2 with
      | none => rw [hfm] at hrepr; exact Option.noConfusion hrepr
      | some r2 =>
        rw [hfm] at hrepr
        simp only [] at hrepr
        obtain ⟨h2, t2', hr2, hp2⟩ :
            ∃ h2 t2', r2 = h2 :: t2' ∧ (getRule h2.tt).precedence < 7 := by
          match t2, hrepr with
          | [], hrepr =>
            rw [reprATail] at hrepr
            injection hrepr with hrepr
            exact ⟨rtk, rrest, hrepr, hprec⟩
          | (op2, m2) :: t3, hrepr =>
            obtain ⟨h2x, t2x, hex, hpx⟩ := reprATail_head s.source op2 m2 t3 r2 _ hrepr
            exact ⟨h2x, t2x, hex, by omega⟩
        subst hr2
        obtain ⟨hget, hdrop2, hlt⟩ := drop_cons hd
        have hprec6 : (getRule optk.tt).precedence = 6 := by
          rw [htt]; cases op <;> rfl
        have hdropF : s.tokens.drop (s.tokens.length - (h2 :: t2').length) = h2 :: t2' := by
          apply drop_suffix_drop (i := s.index + 1)
          rw [hdrop2]
          exact reprM_suffix s.source m tks2 _ hfm
        obtain ⟨hget2, hdrop3, hlt2⟩ := drop_cons hdropF
        have hline2 : h2.line = 1 := hlines h2 (mem_of_getElem? hget2)
        have hinner : parsePrec g (precFromNat ((getRule optk.tt).precedence + 1))
            s.advance = .ok () (emitted s (s.tokens.length - (h2 :: t2').length)
              (emitM s.vm.constants.length m)) := by
          rw [hprec6]
          exact lemM7 m g s.advance h2 t2' (by omega) hlines
            (by show reprM s.source m (s.tokens.drop (s.index + 1)) = some (h2 :: t2')
                rw [hdrop2]; exact hfm)
            hp2
        have hbyte : optk.tt = CTokenType.Plus ∧ (if op then 3 else 4) = 3 ∨
            optk.tt = CTokenType.Minus ∧ (if op then 3 else 4) = 4 ∨
            optk.tt = CTokenType.Star ∧ (if op then 3 else 4) = 5 ∨
            optk.tt = CTokenType.Slash ∧ (if op then 3 else 4) = 6 := by
          cases op
          · exact Or.inr (Or.inl ⟨htt, rfl⟩)
          · exact Or.inl ⟨htt, rfl⟩
        have hstep := loopIterBinary g precAssignment (if op then 3 else 4) s
          (emitted s (s.tokens.length - (h2 :: t2').length)
            (emitM s.vm.constants.length m))
          optk h2
          (emitted s (s.tokens.length - (h2 :: t2').length)
            ((emitM s.vm.constants.length m).1 ++ [⟨if op then 3 else 4, 1⟩],
             (emitM s.vm.constants.length m).2))
          hget (by rw [hprec6]; rw [show precAssignment = 1 from rfl]; omega)
          hinner hget2 hline2 hbyte
          (emitted_push_op s _ _ _)
        rw [hstep]
        have hIH := lemLoopAT t2 g
          (emitted s (s.tokens.length - (h2 :: t2').length)
            ((emitM s.vm.constants.length m).1 ++ [⟨if op then 3 else 4, 1⟩],
             (emitM s.vm.constants.length m).2))
          rtk rrest (by omega) hlines
          (by show reprATail s.source t2
                (s.tokens.drop (s.tokens.length - (h2 :: t2').length)) = some (rtk :: rrest)
              rw [hdropF]; exact hrepr)
          hprec
        rw [hIH]
        rw [show g + 1 - ((op, m) :: t2).length = g - t2.length from by
          simp only [List.length_cons]; omega]
        congr 1
        simp [emitATail, emitted, List.append_assoc, List.length_append, Nat.add_assoc]
termination_by fuel
decreasing_by all_goals omega

theorem lemA (e : AExp) (fuel : Nat) (s : CState) (rtk : CToken)
    (rrest : List CToken)
    (hfu : cA e ≤ fuel)
    (hlines : ∀ tokn ∈ s.tokens, tokn.line = 1)
    (hrepr : reprA s.source e (s.tokens.drop s.index) = some (rtk :: rrest))
    (hprec : (getRule rtk.tt).precedence < precAssignment) :
    parsePrec fuel precAssignment s =
      .ok () (emitted s (s.tokens.length - (rtk :: rrest).length)
        (emitA s.vm.constants.length e)) := by
  match e with
  | .chain (.chain hf mt) at2 =>
    rw [cA] at hfu
    obtain ⟨g, rfl⟩ : ∃ g, fuel = g + 1 := ⟨fuel - 1, by omega⟩
    rw [reprA] at hrepr
    cases hm : reprM s.source (MExp.chain hf mt) (s.tokens.drop s.index) with
    | none => rw [hm] at hrepr; exact Option.noConfusion hrepr
    | some r3 =>
      rw [hm] at hrepr
      simp only [] at hrepr
      rw [reprM] at hm
      cases hf2 : reprF s.source hf (s.tokens.drop s.index) with
      | none => rw [hf2] at hm; exact Option.noConfusion hm
      | some r2 =>
        rw [hf2] at hm
        simp only [] at hm
        obtain ⟨h3, t3', hr3, hp3⟩ :
            ∃ h3 t3', r3 = h3 :: t3' ∧ (getRule h3.tt).precedence < 7 := by
          match at2, hrepr with
          | [], hrepr =>
            rw [reprATail] at hrepr
            injection hrepr with hrepr
            refine ⟨rtk, rrest, hrepr, ?_⟩
            rw [show precAssignment = 1 from rfl] at hprec
            omega
          | (opx, mx) :: t4, hrepr =>
            obtain ⟨hx, tx, hex, hpx⟩ := reprATail_head s.source opx mx t4 r3 _ hrepr
            exact ⟨hx, tx, hex, by omega⟩
        subst hr3
        obtain ⟨h2, t2', hr2, hp2⟩ :
            ∃ h2 t2', r2 = h2 :: t2' ∧ (getRule h2.tt).precedence < 8 := by
          match mt, hm with
          | [], hm =>
            rw [reprMTail] at hm
            injection hm with hm
            exact ⟨h3, t3', hm, by omega⟩
          | (opy, fy) :: t5, hm =>
            obtain ⟨hx, tx, hex, hpx⟩ := reprMTail_head s.source opy fy t5 r2 _ hm
            exact ⟨hx, tx, hex, by omega⟩
        subst hr2
        rw [parsePrec]
        rw [lemPrefixF hf g s h2 t2' (by omega) hlines hf2]
        simp only []
        have hdropF : s.tokens.drop (s.tokens.length - (h2 :: t2').length) = h2 :: t2' :=
          drop_suffix_drop (reprF_suffix s.source hf _ _ hf2)
        have hMT := lemLoopMT mt g precAssignment
          (emitted s (s.tokens.length - (h2 :: t2').length)
            (emitF s.vm.constants.length hf))
          h3 t3' (by omega)
          (by rw [show precAssignment = 1 from rfl]; omega)
          hlines
          (by show reprMTail s.source mt
                (s.tokens.drop (s.tokens.length - (h2 :: t2').length)) = some (h3 :: t3')
              rw [hdropF]; exact hm)
          (by omega)
        rw [hMT]
        have hdrop3 : s.tokens.drop (s.tokens.length - (h3 :: t3').length) = h3 :: t3' := by
          apply drop_suffix_drop (i := s.tokens.length - (h2 :: t2').length)
          rw [hdropF]
          exact reprMTail_suffix s.source mt _ _ hm
        have hAT := lemLoopAT at2 (g - mt.length)
          (emitted (emitted s (s.tokens.length - (h2 :: t2').length)
              (emitF s.vm.constants.length hf))
            ((emitted s (s.tokens.length - (h2 :: t2').length)
              (emitF s.vm.constants.length hf)).tokens.length - (h3 :: t3').length)
            (emitMTail (emitted s (s.tokens.length - (h2 :: t2').length)
              (emitF s.vm.constants.length hf)).vm.constants.length mt))
          rtk rrest
          (by have := cMT_ge_len mt; omega)
          hlines
          (by show reprATail s.source at2
                (s.tokens.drop (s.tokens.length - (h3 :: t3').length)) = some (rtk :: rrest)
              rw [hdrop3]; exact hrepr)
          (by rw [show precAssignment = 1 from rfl] at hprec; omega)
        rw [hAT]
        have hdropK : s.tokens.drop (s.tokens.length - (rtk :: rrest).length) = rtk :: rrest := by
          apply drop_suffix_drop (i := s.tokens.length - (h3 :: t3').length)
          rw [hdrop3]
          exact reprATail_suffix s.source at2 _ _ hrepr
        obtain ⟨hgetK, hdropK2, hltK⟩ := drop_cons hdropK
        refine loopExitOk _ _ _ _ rtk ?_ ?_ ?_ ?_
        · have hx1 := cMT_ge_len mt
          have hx2 := cAT_ge_len at2
          omega
        · exact hgetK
        · exact hprec
        · simp [emitA, emitM, emitted, List.append_assoc, List.length_append, Nat.add_assoc]
termination_by fuel
decreasing_by all_goals omega

end

end Petrel
namespace Petrel

theorem getElem?_append_left_len {α : Type} (a b : List α) (i : Nat) :
    (a ++ b)[a.length + i]? = b[i]? := by
  rw [List.getElem?_append_right (by omega)]
  congr 1
  omega

theorem constLink_left {P : List Value} {k : Nat} {a b : List Value}
    (h : ∀ i v, (a ++ b)[i]? = some v → k + i < 256 ∧ P[k + i]? = some v) :
    ∀ i v, a[i]? = some v → k + i < 256 ∧ P[k + i]? = some v := by
  intro i v hi
  apply h
  rw [List.getElem?_append_left ((List.getElem?_eq_some.mp hi).1)]
  exact hi

theorem constLink_right {P : List Value} {k : Nat} {a b : List Value}
    (h : ∀ i v, (a ++ b)[i]? = some v → k + i < 256 ∧ P[k + i]? = some v) :
    ∀ i v, b[i]? = some v → (k + a.length) + i < 256 ∧ P[(k + a.length) + i]? = some v := by
  intro i v hi
  have h2 := h (a.length + i) v (by rw [getElem?_append_left_len]; exact hi)
  refine ⟨by omega, ?_⟩
  rw [show k + a.length + i = k + (a.length + i) from by omega]
  exact h2.2

theorem drop_append_of_drop {α : Type} {l a b : List α} {i : Nat}
    (h : l.drop i = a ++ b) : l.drop (i + a.length) = b := by
  have h2 : (l.drop i).drop a.length = l.drop (i + a.length) := List.drop_drop _ _ _
  rw [← h2, h]
  exact List.drop_left a b

theorem runLoop_cont {ins : List Operation} {P stack : List Value} {ip : Nat}
    {stack' : List Value} {ip' : Nat} (g : Nat)
    (hs : runStep ins P stack ip = .cont stack' ip') :
    runLoop (g + 1) ins P stack ip = runLoop g ins P stack' ip' := by
  rw [runLoop, hs]

theorem stepConst {ins : List Operation} {P stack : List Value} {ip b l1 l2 : Nat}
    {v : Value}
    (h0 : ins[ip]? = some ⟨1, l1⟩)
    (h1 : ins[ip + 1]? = some ⟨b, l2⟩)
    (hv : P[b]? = some v) :
    runStep ins P stack ip = .cont (v :: stack) (ip + 2) := by
  simp [runStep, dissasembleCheck, h0, h1, hv, tryFromByte]

theorem stepAdd {ins : List Operation} {P stack : List Value} {ip l : Nat}
    {a c : ℚ}
    (h0 : ins[ip]? = some ⟨3, l⟩) :
    runStep ins P (.number a :: .number c :: stack) ip =
      .cont (.number (c + a) :: stack) (ip + 1) := by
  simp [runStep, dissasembleCheck, h0, tryFromByte, binaryOpStep]

theorem stepSub {ins : List Operation} {P stack : List Value} {ip l : Nat}
    {a c : ℚ}
    (h0 : ins[ip]? = some ⟨4, l⟩) :
    runStep ins P (.number a :: .number c :: stack) ip =
      .cont (.number (c - a) :: stack) (ip + 1) := by
  simp [runStep, dissasembleCheck, h0, tryFromByte, binaryOpStep]

theorem stepMul {ins : List Operation} {P stack : List Value} {ip l : Nat}
    {a c : ℚ}
    (h0 : ins[ip]? = some ⟨5, l⟩) :
    runStep ins P (.number a :: .number c :: stack) ip =
      .cont (.number (c * a) :: stack) (ip + 1) := by
  simp [runStep, dissasembleCheck, h0, tryFromByte, binaryOpStep]

theorem stepDiv {ins : List Operation} {P stack : List Value} {ip l : Nat}
    {a c : ℚ}
    (h0 : ins[ip]? = some ⟨6, l⟩) :
    runStep ins P (.number a :: .number c :: stack) ip =
      .cont (.number (c / a) :: stack) (ip + 1) := by
  simp [runStep, dissasembleCheck, h0, tryFromByte, binaryOpStep]

theorem stepRet {ins : List Operation} {P stack : List Value} {ip l : Nat}
    (h0 : ins[ip]? = some ⟨0, l⟩) :
    runStep ins P stack ip = .halt (.ok stack) := by
  simp [runStep, dissasembleCheck, h0, tryFromByte]

mutual

theorem execF (f : FExp) (fuel k ip : Nat) (ins : List Operation)
    (P stack : List Value) (rest : List Operation)
    (hfu : itF f ≤ fuel)
    (hdrop : ins.drop ip = (emitF k f).1 ++ rest)
    (hconst : ∀ i v, (emitF k f).2[i]? = some v → k + i < 256 ∧ P[k + i]? = some v) :
    runLoop fuel ins P stack ip =
      runLoop (fuel - itF f) ins P (.number (evalF f) :: stack)
        (ip + (emitF k f).1.length) := by
  match f with
  | .num q =>
    simp only [itF] at hfu ⊢
    obtain ⟨g, rfl⟩ : ∃ g, fuel = g + 1 := ⟨fuel - 1, by omega⟩
    rw [emitF] at hdrop
    simp only [List.cons_append, List.nil_append] at hdrop
    obtain ⟨h0, hdrop2, hlt⟩ := drop_cons hdrop
    obtain ⟨h1, hdrop3, hlt2⟩ := drop_cons hdrop2
    have hc0 := hconst 0 (.number q) (by simp [emitF])
    have hklt : k < 256 := by omega
    have hv : P[k % 256]? = some (.number q) := by
      rw [Nat.mod_eq_of_lt hklt]
      have h2 := hc0.2
      simpa using h2
    rw [runLoop_cont g (stepConst h0 h1 hv)]
    simp only [emitF, evalF]
    simp
  | .grp e =>
    simp only [itF] at hfu ⊢
    rw [show emitF k (FExp.grp e) = emitA k e from by rw [emitF]] at hdrop hconst ⊢
    rw [show evalF (FExp.grp e) = evalA e from by rw [evalF]]
    exact execA e fuel k ip ins P stack rest hfu hdrop hconst
termination_by sizeOf f

theorem execMTl (t : List (Bool × FExp)) (fuel k ip : Nat) (ins : List Operation)
    (P stack : List Value) (acc : ℚ) (rest : List Operation)
    (hfu : itMT t ≤ fuel)
    (hdrop : ins.drop ip = (emitMTail k t).1 ++ rest)
    (hconst : ∀ i v, (emitMTail k t).2[i]? = some v → k + i < 256 ∧ P[k + i]? = some v) :
    runLoop fuel ins P (.number acc :: stack) ip =
      runLoop (fuel - itMT t) ins P (.number (evalMTail acc t) :: stack)
        (ip + (emitMTail k t).1.length) := by
  match t with
  | [] =>
    simp only [itMT, emitMTail, evalMTail]
    simp
  | (op, f) :: t2 =>
    simp only [itMT] at hfu
    rw [emitMTail] at hdrop hconst
    simp only [] at hdrop hconst
    simp only [List.append_assoc] at hdrop
    have hF := execF f fuel k ip ins P (.number acc :: stack)
      ([⟨if op then 5 else 6, 1⟩] ++
        ((emitMTail (k + (emitF k f).2.length) t2).1 ++ rest))
      (by omega) hdrop (constLink_left hconst)
    rw [hF]
    obtain ⟨g2, hg2⟩ : ∃ g2, fuel - itF f = g2 + 1 := ⟨fuel - itF f - 1, by omega⟩
    rw [hg2]
    have hdropOp := drop_append_of_drop hdrop
    rw [List.singleton_append] at hdropOp
    obtain ⟨hOp, hdropNext, hltOp⟩ := drop_cons hdropOp
    have hstepOp : runStep ins P (.number (evalF f) :: .number acc :: stack)
        (ip + (emitF k f).1.length) =
        .cont (.number (if op then acc * evalF f else acc / evalF f) :: stack)
          (ip + (emitF k f).1.length + 1) := by
      cases op
      · simp only [Bool.false_eq_true, if_false] at hOp ⊢
        exact stepDiv hOp
      · simp only [if_true] at hOp ⊢
        exact stepMul hOp
    rw [runLoop_cont g2 hstepOp]
    have hIH := execMTl t2 g2 (k + (emitF k f).2.length)
      (ip + (emitF k f).1.length + 1) ins P stack
      (if op then acc * evalF f else acc / evalF f) rest
      (by omega) hdropNext (constLink_right hconst)
    rw [hIH]
    have hfe : g2 - itMT t2 = fuel - itMT ((op, f) :: t2) := by
      simp only [itMT]
      omega
    have hip : ip + (emitF k f).1.length + 1 +
        (emitMTail (k + (emitF k f).2.length) t2).1.length =
        ip + (emitMTail k ((op, f) :: t2)).1.length := by
      simp only [emitMTail]
      simp [List.length_append]
      omega
    have hacc : evalMTail acc ((op, f) :: t2) =
        evalMTail (if op then acc * evalF f else acc / evalF f) t2 := by
      rw [evalMTail]
    rw [hfe, hip, hacc]
termination_by sizeOf t

theorem execM (m : MExp) (fuel k ip : Nat) (ins : List Operation)
    (P stack : List Value) (rest : List Operation)
    (hfu : itM m ≤ fuel)
    (hdrop : ins.drop ip = (emitM k m).1 ++ rest)
    (hconst : ∀ i v, (emitM k m).2[i]? = some v → k + i < 256 ∧ P[k + i]? = some v) :
    runLoop fuel ins P stack ip =
      runLoop (fuel - itM m) ins P (.number (evalM m) :: stack)
        (ip + (emitM k m).1.length) := by
  match m with
  | .chain hf t =>
    simp only [itM] at hfu
    rw [emitM] at hdrop hconst
    simp only [] at hdrop hconst
    simp only [List.append_assoc] at hdrop
    have hF := execF hf fuel k ip ins P stack
      ((emitMTail (k + (emitF k hf).2.length) t).1 ++ rest)
      (by omega) hdrop (constLink_left hconst)
    rw [hF]
    have hdrop2 := drop_append_of_drop hdrop
    have hMT := execMTl t (fuel - itF hf) (k + (emitF k hf).2.length)
      (ip + (emitF k hf).1.length) ins P stack (evalF hf) rest
      (by omega) hdrop2 (constLink_right hconst)
    rw [hMT]
    have hfe : fuel - itF hf - itMT t = fuel - itM (.chain hf t) := by
      simp only [itM]
      omega
    have hip : ip + (emitF k hf).1.length +
        (emitMTail (k + (emitF k hf).2.length) t).1.length =
        ip + (emitM k (.chain hf t)).1.length := by
      simp only [emitM]
      simp [List.length_append]
      omega
    have hv : evalM (.chain hf t) = evalMTail (evalF hf) t := by
      rw [evalM]
    rw [hfe, hip, hv]
termination_by sizeOf m

theorem execATl (t : List (Bool × MExp)) (fuel k ip : Nat) (ins : List Operation)
    (P stack : List Value) (acc : ℚ) (rest : List Operation)
    (hfu : itAT t ≤ fuel)
    (hdrop : ins.drop ip = (emitATail k t).1 ++ rest)
    (hconst : ∀ i v, (emitATail k t).2[i]? = some v → k + i < 256 ∧ P[k + i]? = some v) :
    runLoop fuel ins P (.number acc :: stack) ip =
      runLoop (fuel - itAT t) ins P (.number (evalATail acc t) :: stack)
        (ip + (emitATail k t).1.length) := by
  match t with
  | [] =>
    simp only [itAT, emitATail, evalATail]
    simp
  | (op, m) :: t2 =>
    simp only [itAT] at hfu
    rw [emitATail] at hdrop hconst
    simp only [] at hdrop hconst
    simp only [List.append_assoc] at hdrop
    have hM := execM m fuel k ip ins P (.number acc :: stack)
      ([⟨if op then 3 else 4, 1⟩] ++
        ((emitATail (k + (emitM k m).2.length) t2).1 ++ rest))
      (by omega) hdrop (constLink_left hconst)
    rw [hM]
    obtain ⟨g2, hg2⟩ : ∃ g2, fuel - itM m = g2 + 1 := ⟨fuel - itM m - 1, by omega⟩
    rw [hg2]
    have hdropOp := drop_append_of_drop hdrop
    rw [List.singleton_append] at hdropOp
    obtain ⟨hOp, hdropNext, hltOp⟩ := drop_cons hdropOp
    have hstepOp : runStep ins P (.number (evalM m) :: .number acc :: stack)
        (ip + (emitM k m).1.length) =
        .cont (.number (if op then acc + evalM m else acc - evalM m) :: stack)
          (ip + (emitM k m).1.length + 1) := by
      cases op
      · simp only [Bool.false_eq_true, if_false] at hOp ⊢
        exact stepSub hOp
      · simp only [if_true] at hOp ⊢
        exact stepAdd hOp
    rw [runLoop_cont g2 hstepOp]
    have hIH := execATl t2 g2 (k + (emitM k m).2.length)
      (ip + (emitM k m).1.length + 1) ins P stack
      (if op then acc + evalM m else acc - evalM m) rest
      (by omega) hdropNext (constLink_right hconst)
    rw [hIH]
    have hfe : g2 - itAT t2 = fuel - itAT ((op, m) :: t2) := by
      simp only [itAT]
      omega
    have hip : ip + (emitM k m).1.length + 1 +
        (emitATail (k + (emitM k m).2.length) t2).1.length =
        ip + (emitATail k ((op, m) :: t2)).1.length := by
      simp only [emitATail]
      simp [List.length_append]
      omega
    have hacc : evalATail acc ((op, m) :: t2) =
        evalATail (if op then acc + evalM m else acc - evalM m) t2 := by
      rw [evalATail]
    rw [hfe, hip, hacc]
termination_by sizeOf t

theorem execA (e : AExp) (fuel k ip : Nat) (ins : List Operation)
    (P stack : List Value) (rest : List Operation)
    (hfu : itA e ≤ fuel)
    (hdrop : ins.drop ip = (emitA k e).1 ++ rest)
    (hconst : ∀ i v, (emitA k e).2[i]? = some v → k + i < 256 ∧ P[k + i]? = some v) :
    runLoop fuel ins P stack ip =
      runLoop (fuel - itA e) ins P (.number (evalA e) :: stack)
        (ip + (emitA k e).1.length) := by
  match e with
  | .chain hm t =>
    simp only [itA] at hfu
    rw [emitA] at hdrop hconst
    simp only [] at hdrop hconst
    simp only [List.append_assoc] at hdrop
    have hM := execM hm fuel k ip ins P stack
      ((emitATail (k + (emitM k hm).2.length) t).1 ++ rest)
      (by omega) hdrop (constLink_left hconst)
    rw [hM]
    have hdrop2 := drop_append_of_drop hdrop
    have hAT := execATl t (fuel - itM hm) (k + (emitM k hm).2.length)
      (ip + (emitM k hm).1.length) ins P stack (evalM hm) rest
      (by omega) hdrop2 (constLink_right hconst)
    rw [hAT]
    have hfe : fuel - itM hm - itAT t = fuel - itA (.chain hm t) := by
      simp only [itA]
      omega
    have hip : ip + (emitM k hm).1.length +
        (emitATail (k + (emitM k hm).2.length) t).1.length =
        ip + (emitA k (.chain hm t)).1.length := by
      simp only [emitA]
      simp [List.length_append]
      omega
    have hv : evalA (.chain hm t) = evalATail (evalM hm) t := by
      rw [evalA]
    rw [hfe, hip, hv]
termination_by sizeOf e

end

end Petrel
namespace Petrel

mutual

theorem itA_le (e : AExp) (k : Nat) : itA e ≤ (emitA k e).1.length := by
  match e with
  | .chain h t =>
    have h1 := itM_le h k
    have h2 := itAT_le t (k + (emitM k h).2.length)
    simp only [itA, emitA]
    simp [List.length_append]
    omega
termination_by sizeOf e

theorem itAT_le (t : List (Bool × MExp)) (k : Nat) :
    itAT t ≤ (emitATail k t).1.length := by
  match t with
  | [] => simp [itAT, emitATail]
  | (op, m) :: t2 =>
    have h1 := itM_le m k
    have h2 := itAT_le t2 (k + (emitM k m).2.length)
    simp only [itAT, emitATail]
    simp [List.length_append]
    omega
termination_by sizeOf t

theorem itM_le (m : MExp) (k : Nat) : itM m ≤ (emitM k m).1.length := by
  match m with
  | .chain h t =>
    have h1 := itF_le h k
    have h2 := itMT_le t (k + (emitF k h).2.length)
    simp only [itM, emitM]
    simp [List.length_append]
    omega
termination_by sizeOf m

theorem itMT_le (t : List (Bool × FExp)) (k : Nat) :
    itMT t ≤ (emitMTail k t).1.length := by
  match t with
  | [] => simp [itMT, emitMTail]
  | (op, f) :: t2 =>
    have h1 := itF_le f k
    have h2 := itMT_le t2 (k + (emitF k f).2.length)
    simp only [itMT, emitMTail]
    simp [List.length_append]
    omega
termination_by sizeOf t

theorem itF_le (f : FExp) (k : Nat) : itF f ≤ (emitF k f).1.length := by
  match f with
  | .num q => simp [itF, emitF]
  | .grp e =>
    have h1 := itA_le e k
    simp only [itF, emitF]
    exact h1
termination_by sizeOf f

end

set_option maxHeartbeats 1000000 in
/-- C4, amended.  For arithmetic expressions built from the binary
operators `+ - * /`, numeric literals and parentheses (no unary minus: see
`C4_counterexample`), on a single source line, with the emitted constant
pool within the one-byte bound, compiling and running yields exactly the
standard precedence-respecting left-associative evaluation `evalA`, in the
exact rational arithmetic mirroring the `f64` operation structure. -/
theorem C4_amended (sourceRaw : List Char) (tokens : List CToken) (e : AExp)
    (etk : CToken) (fuel : Nat)
    (hfu : cA e ≤ fuel)
    (hlines : ∀ t ∈ tokens, t.line = 1)
    (hrepr : reprA (linesConcat sourceRaw) e tokens = some [etk])
    (heof : etk.tt = .EOF)
    (hlit : (emitA 0 e).2.length ≤ 256) :
    ∃ vm, compileTokens fuel sourceRaw tokens = .ok vm ∧
      VM.run vm = .ok [.number (evalA e)] := by
  have hsfx : [etk].IsSuffix tokens :=
    reprA_suffix (linesConcat sourceRaw) e tokens [etk] hrepr
  have hdropK : tokens.drop (tokens.length - 1) = [etk] := by
    have h2 := suffix_drop_eq hsfx
    simpa using h2
  obtain ⟨hgetE, hdropE, hltE⟩ := drop_cons hdropK
  have hlineE : etk.line = 1 := hlines etk (mem_of_getElem? hgetE)
  have hAOK : parsePrec fuel precAssignment
      ⟨linesConcat sourceRaw, tokens, 0, VM.new, false⟩ =
      .ok () (emitted ⟨linesConcat sourceRaw, tokens, 0, VM.new, false⟩
        (tokens.length - 1) (emitA 0 e)) := by
    exact lemA e fuel ⟨linesConcat sourceRaw, tokens, 0, VM.new, false⟩ etk []
      hfu hlines hrepr (by rw [heof]; decide)
  have hcons : consume .EOF
      (emitted ⟨linesConcat sourceRaw, tokens, 0, VM.new, false⟩
        (tokens.length - 1) (emitA 0 e)) =
      .ok () (emitted ⟨linesConcat sourceRaw, tokens, 0, VM.new, false⟩
        (tokens.length - 1) (emitA 0 e)).advance := by
    rw [consume]
    rw [show (emitted ⟨linesConcat sourceRaw, tokens, 0, VM.new, false⟩
        (tokens.length - 1) (emitA 0 e)).current = some etk from hgetE]
    simp only []
    rw [if_pos heof.symm]
  have hadd : addInstruction 0
      { (emitted ⟨linesConcat sourceRaw, tokens, 0, VM.new, false⟩
          (tokens.length - 1) (emitA 0 e)).advance with
          index := (emitted ⟨linesConcat sourceRaw, tokens, 0, VM.new, false⟩
            (tokens.length - 1) (emitA 0 e)).advance.index - 1 } =
      .ok () ⟨linesConcat sourceRaw, tokens, tokens.length - 1,
        ⟨(emitA 0 e).1 ++ [⟨0, 1⟩], (emitA 0 e).2, [], 0⟩, false⟩ := by
    rw [addInstruction]
    rw [show ({ (emitted ⟨linesConcat sourceRaw, tokens, 0, VM.new, false⟩
          (tokens.length - 1) (emitA 0 e)).advance with
          index := (emitted ⟨linesConcat sourceRaw, tokens, 0, VM.new, false⟩
            (tokens.length - 1) (emitA 0 e)).advance.index - 1 } : CState).current
        = some etk from hgetE]
    simp only []
    rw [hlineE]
    simp [emitted, CState.advance, VM.new]
  have hcomp : compileTokens fuel sourceRaw tokens =
      .ok ⟨(emitA 0 e).1 ++ [⟨0, 1⟩], (emitA 0 e).2, [], 0⟩ := by
    rw [compileTokens]
    rw [hAOK]
    simp only []
    rw [hcons]
    simp only []
    rw [hadd]
  refine ⟨_, hcomp, ?_⟩
  have hconstTop : ∀ i v, (emitA 0 e).2[i]? = some v →
      0 + i < 256 ∧ (emitA 0 e).2[0 + i]? = some v := by
    intro i v hi
    have hilt : i < (emitA 0 e).2.length := (List.getElem?_eq_some.mp hi).1
    exact ⟨by omega, by simpa using hi⟩
  rw [VM.run]
  simp only []
  have hitle := itA_le e 0
  have hEx := execA e (((emitA 0 e).1 ++ [(⟨0, 1⟩ : Operation)]).length + 1) 0 0
    ((emitA 0 e).1 ++ [(⟨0, 1⟩ : Operation)]) ((emitA 0 e).2) [] [(⟨0, 1⟩ : Operation)]
    (by simp [List.length_append]; omega)
    (by simp)
    hconstTop
  rw [hEx]
  have hret : ((emitA 0 e).1 ++ [⟨0, 1⟩])[0 + (emitA 0 e).1.length]? =
      some ⟨0, 1⟩ := by
    rw [Nat.zero_add]
    simp
  obtain ⟨g3, hg3⟩ : ∃ g3,
      ((emitA 0 e).1 ++ [(⟨0, 1⟩ : Operation)]).length + 1 - itA e = g3 + 1 :=
    ⟨((emitA 0 e).1 ++ [(⟨0, 1⟩ : Operation)]).length - itA e,
      by simp [List.length_append]; omega⟩
  rw [hg3]
  rw [runLoop]
  rw [stepRet hret]

/-- C4, counterexample: the claim covers unary minus, but `Compiler::unary`
compiles its operand with `expression()` — the **lowest** precedence — so
the whole rest of the expression is negated: `-2+3` compiles, runs, and
yields `-5`, not the `1` of standard evaluation. -/
theorem C4_counterexample :
    compileTokens 20 ("-2+3".toList)
      [⟨.Minus, 1, 0, 1⟩, ⟨.Number, 1, 1, 1⟩, ⟨.Plus, 1, 2, 1⟩,
       ⟨.Number, 1, 3, 1⟩, ⟨.EOF, 1, 4, 0⟩] =
      .ok ⟨[⟨1, 1⟩, ⟨0, 1⟩, ⟨1, 1⟩, ⟨1, 1⟩, ⟨3, 1⟩, ⟨2, 1⟩, ⟨0, 1⟩],
        [.number 2, .number 3], [], 0⟩ ∧
    VM.run ⟨[⟨1, 1⟩, ⟨0, 1⟩, ⟨1, 1⟩, ⟨1, 1⟩, ⟨3, 1⟩, ⟨2, 1⟩, ⟨0, 1⟩],
        [.number 2, .number 3], [], 0⟩ = .ok [.number (-5)] ∧
    (-5 : ℚ) ≠ 1 := by
  refine ⟨rfl, ?_, by norm_num⟩
  norm_num [VM.run, runLoop, runStep, dissasembleCheck, tryFromByte, binaryOpStep]
  decide

set_option maxHeartbeats 1000000 in
/-- Witness for `C4_amended` at the spec's own scenario
`"2.5 + 7.5 / 2.0"`: the compiled program runs to `25/4 = 6.25`. -/
theorem C4_witness :
    ∃ vm, compileTokens 40
        ['2','.','5',' ','+',' ','7','.','5',' ','/',' ','2','.','0']
        [⟨.Number, 1, 0, 3⟩, ⟨.Plus, 1, 4, 1⟩, ⟨.Number, 1, 6, 3⟩,
         ⟨.Slash, 1, 10, 1⟩, ⟨.Number, 1, 12, 3⟩, ⟨.EOF, 1, 15, 0⟩] = .ok vm ∧
      VM.run vm = .ok [.number (25/4)] := by
  have hmain := C4_amended
    ['2','.','5',' ','+',' ','7','.','5',' ','/',' ','2','.','0']
    [⟨.Number, 1, 0, 3⟩, ⟨.Plus, 1, 4, 1⟩, ⟨.Number, 1, 6, 3⟩,
     ⟨.Slash, 1, 10, 1⟩, ⟨.Number, 1, 12, 3⟩, ⟨.EOF, 1, 15, 0⟩]
    (.chain (.chain (.num (5/2)) []) [(true, .chain (.num (15/2)) [(false, .num 2)])])
    ⟨.EOF, 1, 15, 0⟩ 40
    (by norm_num [cA, cAT, cM7, cMT, cF8, cPF])
    (by decide)
    (by
      rw [show linesConcat ['2','.','5',' ','+',' ','7','.','5',' ','/',' ','2','.','0']
        = ['2','.','5',' ','+',' ','7','.','5',' ','/',' ','2','.','0'] from by decide]
      have h1 : parseNumeral ['2','.','5'] = some (5/2 : ℚ) := by
        rw [show parseNumeral ['2','.','5'] =
          some (((2:ℕ):ℚ) + ((5:ℕ):ℚ) / 10 ^ (1:ℕ)) from rfl]
        norm_num
      have h2 : parseNumeral ['7','.','5'] = some (15/2 : ℚ) := by
        rw [show parseNumeral ['7','.','5'] =
          some (((7:ℕ):ℚ) + ((5:ℕ):ℚ) / 10 ^ (1:ℕ)) from rfl]
        norm_num
      have h3 : parseNumeral ['2','.','0'] = some (2 : ℚ) := by
        rw [show parseNumeral ['2','.','0'] =
          some (((2:ℕ):ℚ) + ((0:ℕ):ℚ) / 10 ^ (1:ℕ)) from rfl]
        norm_num
      simp only [reprA, reprM, reprF, reprATail, reprMTail]
      norm_num [h1, h2, h3])
    rfl
    (by norm_num [emitA, emitM, emitATail, emitMTail, emitF])
  rw [show evalA (.chain (.chain (.num (5/2)) [])
      [(true, .chain (.num (15/2)) [(false, .num 2)])]) = (25/4 : ℚ) from by
    simp only [evalA, evalATail, evalM, evalMTail, evalF]
    norm_num] at hmain
  exact hmain

end Petrel
